import Mathlib

/-!
# openid-go: Attribute Exchange and the redirect URL

A shallow embedding of `RequestAttributes` and `ParseAttributes`
(att_extension.go) and of `buildRedirectURL` (redirect.go).

Modelling conventions.

* A Go `string` is a sequence of bytes.  It is modelled by the Lean `String`
  that has one character per byte (`IsBytes`: every character code is below
  256), so ASCII text is modelled by itself.  The functions of
  att_extension.go (`strings.HasPrefix`, `strings.HasSuffix`,
  `strings.IndexByte`, slicing, `len(s) > 0`, `+`) never look at a character
  code, and their theorems hold for every `String`.  The escaping of net/url
  does, and the theorems that decode an encoded query assume `IsBytes` of the
  strings involved.
* A Go `map[string]T` is an association list with pairwise distinct keys.  The
  list order is the order in which a `range` statement visits the entries, so
  a statement about "every traversal order" quantifies over the permutations
  of the list.  A `nil` map pointer is `none`.
* `url.Parse`, `url.ParseQuery` and the order of the two `range` loops of
  `ParseAttributes` belong to the Go runtime and are parameters (`Runtime`).
* `Values.Encode`, `url.QueryEscape`, `url.QueryUnescape` and `url.ParseQuery`
  of Go's net/url are modelled in the namespace `url`, for `buildRedirectURL`
  and as one instance of the runtime (`Runtime.netURL`).
-/

set_option autoImplicit false

namespace openid

/-! ## Go strings -/

namespace strings

/-- Go `strings.HasPrefix(s, p)`. -/
def HasPrefix (s p : String) : Bool := p.data.isPrefixOf s.data

/-- Go `strings.HasSuffix(s, p)`. -/
def HasSuffix (s p : String) : Bool := p.data.isSuffixOf s.data

/-- Go `strings.IndexByte(s, c)`: the index of the first `c`, or `-1`. -/
def IndexByte (s : String) (c : Char) : Int :=
  if c ∈ s.data then (s.data.indexOf c : Int) else -1

/-- Go `s[lo:hi]`. -/
def slice (s : String) (lo hi : Nat) : String := ⟨(s.data.take hi).drop lo⟩

/-- Scan of `strings.Split` for a one-character separator: `cur` holds the
characters of the current field, most recent first. -/
def splitAux (sep : Char) : List Char → List Char → List String
  | [], cur => [⟨cur.reverse⟩]
  | c :: cs, cur =>
    if c = sep then ⟨cur.reverse⟩ :: splitAux sep cs [] else splitAux sep cs (c :: cur)

/-- Go `strings.Split(s, sep)` for a one-character separator. -/
def Split (s : String) (sep : Char) : List String := splitAux sep s.data []

end strings

/-! ## Go maps and `url.Values` -/

/-- A Go `map[string]β`: entries in the order `range` visits them. -/
abbrev GoMap (β : Type) := List (String × β)

namespace GoMap

variable {β : Type}

/-- Go `m[k]` with the presence flag. -/
def get : GoMap β → String → Option β
  | [], _ => none
  | (k', v) :: rest, k => if k' = k then some v else get rest k

/-- Go `m[k] = v`. -/
def set : GoMap β → String → β → GoMap β
  | [], k, v => [(k, v)]
  | (k', v') :: rest, k, v => if k' = k then (k, v) :: rest else (k', v') :: set rest k v

/-- The keys of the map. -/
def keys (m : GoMap β) : List String := m.map Prod.fst

end GoMap

/-- Go `url.Values`, a `map[string][]string`. -/
abbrev Values := GoMap (List String)

namespace Values

/-- Go `v.Add(key, value)`: `v[key] = append(v[key], value)`. -/
def Add (vs : Values) (key value : String) : Values :=
  GoMap.set vs key ((GoMap.get vs key).getD [] ++ [value])

/-- Go `v.Get(key)`: the first value of the key, or the empty string. -/
def Get (vs : Values) (key : String) : String :=
  match GoMap.get vs key with
  | some (v :: _) => v
  | _ => ""

/-- What `url.ParseQuery` guarantees of its result: distinct keys, and no key
with an empty value list. -/
def WellFormed (vs : Values) : Prop :=
  (GoMap.keys vs).Nodup ∧ ∀ e ∈ vs, e.2 ≠ []

instance (vs : Values) : Decidable (WellFormed vs) := by
  unfold WellFormed; infer_instance

end Values

/-- The AX 1.0 namespace URI. -/
def axNamespace : String := "http://openid.net/srv/ax/1.0"

/-! ## RequestAttributes -/

/-- The body of `for alias, uri := range *m` in `RequestAttributes`, run over
the entries in traversal order: the state is the bag and the alias list. -/
def typeLoop : GoMap String → Values → String → Values × String
  | [], values, list => (values, list)
  | (alias_, uri) :: rest, values, list =>
    let values := values.Add ("openid.ax.type." ++ alias_) uri
    let list := if list.length > 0 then list ++ "," else list
    typeLoop rest values (list ++ alias_)

/-- One `if m != nil { ... }` block of `RequestAttributes`; `listKey` is
`openid.ax.required` or `openid.ax.if_available`. -/
def requestBlock (listKey : String) (m : Option (GoMap String)) (values : Values) : Values :=
  match m with
  | none => values
  | some entries =>
    let r := typeLoop entries values ""
    if r.2.length > 0 then r.1.Add listKey r.2 else r.1

/-- Go `RequestAttributes(required, optional)`. -/
def RequestAttributes (required optional : Option (GoMap String)) : Values :=
  let values : Values := []
  let values := values.Add "openid.ns.ax" axNamespace
  let values := values.Add "openid.ax.mode" "fetch_request"
  let values := requestBlock "openid.ax.required" required values
  requestBlock "openid.ax.if_available" optional values

/-- The entries of a map argument; a nil map has none. -/
def entries {β : Type} (m : Option (GoMap β)) : GoMap β := m.getD []

/-- Two arguments that denote the same Go map: both nil, or the same entries
visited in a possibly different order. -/
def SameMap {β : Type} : Option (GoMap β) → Option (GoMap β) → Prop
  | none, none => True
  | some l, some l' => l.Perm l'
  | _, _ => False

/-- The URIs the entries of a map declare for the parameter key `k`. -/
def declared (k : String) (es : GoMap String) : List String :=
  (es.filter (fun e => decide ("openid.ax.type." ++ e.1 = k))).map Prod.snd

/-! ## ParseAttributes -/

deriving instance DecidableEq for Except

/-- How a call of `ParseAttributes` ends when it does not return a map. -/
inductive Failure where
  /-- A non-nil Go `error` with this message. -/
  | error (msg : String)
  /-- The run-time panic of `v[0]` on an empty slice. -/
  | indexOutOfRange
  deriving DecidableEq, Repr

/-- The parts of the Go runtime `ParseAttributes` relies on. -/
structure Runtime where
  /-- Go `url.Parse(uri)`, projected on the `RawQuery` of the parsed URL. -/
  Parse : String → Except String String
  /-- Go `url.ParseQuery(rawQuery)`. -/
  ParseQuery : String → Except String Values
  /-- The order in which the namespace loop visits the entries of the map. -/
  range1 : Values → Values
  /-- The order in which the value loop visits the entries of the map. -/
  range2 : Values → Values

/-- The test `strings.HasPrefix(k, "openid.ns.") && len(v) == 1 && v[0] == ns`
of the namespace loop. -/
def isAxNamespace (e : String × List String) : Bool :=
  strings.HasPrefix e.1 "openid.ns." && e.2.length == 1 && e.2.head? == some axNamespace

/-- The namespace loop of `ParseAttributes`: the alias of the first entry, in
traversal order, that declares the AX namespace, or the empty string. -/
def findAlias (entries : Values) : String :=
  match entries.find? isAxNamespace with
  | some e => strings.slice e.1 10 e.1.length
  | none => ""

/-- The alias under which the value loop stores key `k`, or `none` when the
loop moves on without storing it. -/
def valueAlias (vPfx k : String) : Option String :=
  if strings.HasPrefix k vPfx then
    let vAlias := strings.slice k vPfx.length k.length
    let ix := strings.IndexByte vAlias '.'
    if ix ≠ -1 then
      if !strings.HasSuffix vAlias ".1" then none
      else some (strings.slice vAlias 0 ix.toNat)
    else some vAlias
  else none

/-- The value loop of `ParseAttributes` over the entries in traversal order. -/
def valueLoop (vPfx : String) : Values → GoMap String → Except Failure (GoMap String)
  | [], out => .ok out
  | (k, v) :: rest, out =>
    match valueAlias vPfx k with
    | none => valueLoop vPfx rest out
    | some vAlias =>
      match v with
      | [] => .error .indexOutOfRange
      | v0 :: _ => valueLoop vPfx rest (GoMap.set out vAlias v0)

/-- Go `ParseAttributes(uri)`. -/
def ParseAttributes (rt : Runtime) (uri : String) : Except Failure (GoMap String) :=
  match rt.Parse uri with
  | .error err => .error (.error err)
  | .ok rawQuery =>
    match rt.ParseQuery rawQuery with
    | .error err => .error (.error err)
    | .ok values =>
      let alias_ := findAlias (rt.range1 values)
      if alias_.length = 0 then .error (.error "Did not find an alias for the attribute extension")
      else
        let v := (GoMap.get values ("openid." ++ alias_ ++ ".mode")).getD []
        if v = [] ∨ v.length ≠ 1 ∨ v.head? ≠ some "fetch_response" then .error (.error "The extension mode is not fetch_response")
        else valueLoop ("openid." ++ alias_ ++ ".value.") (rt.range2 values) []

/-- The runtime decodes `uri` to the bag `values`: both standard-library calls
succeed, the bag is a well-formed map, and each loop visits every entry of it
exactly once. -/
def Decodes (rt : Runtime) (uri : String) (values : Values) : Prop :=
  ∃ rawQuery, rt.Parse uri = .ok rawQuery ∧ rt.ParseQuery rawQuery = .ok values ∧
    values.WellFormed ∧ (rt.range1 values).Perm values ∧ (rt.range2 values).Perm values

/-! ## Sample data -/

/-- A runtime whose decoder answers every URI with the bag `values` and whose
loops visit the entries in the order `first` resp. `second` rearrange them. -/
def Runtime.fixed (values : Values) (first second : Values → Values) : Runtime where
  Parse := fun uri => .ok uri
  ParseQuery := fun _ => .ok values
  range1 := first
  range2 := second

/-- The decoded response of `TestParseAttributes`. -/
def testResponse : Values :=
  [ ("openid.signed", ["assoc_handle,claimed_id,ext0.count.uid,ext0.mode,ext0.type.uid,ext0.value.uid.1,identity,mode,ns,ns.ext0,op_endpoint,response_nonce,return_to,signed"]),
    ("openid.op_endpoint", ["https://www.exampe.com/oid/server"]),
    ("openid.response_nonce", ["2015-09-25T03:49:46ZmTvmDQ"]),
    ("openid.claimed_id", ["https://www.example.com/oid/id?claim=9f446a4aa5581c1ce61731918083aeb4425551ef"]),
    ("openid.ext0.count.uid", ["1"]),
    ("openid.ext0.value.uid.1", ["123456"]),
    ("openid.identity", ["https://www.example.com/oid/id?claim=9f446a4aa5581c1ce61731918083aeb4425551ef"]),
    ("openid.mode", ["id_res"]),
    ("openid.ns.ext0", ["http://openid.net/srv/ax/1.0"]),
    ("openid.sig", ["61LnHEjZNABEwFFFlzkv4yVlFq8="]),
    ("openid.assoc_handle", ["\x7bHMAC-SHA1\x7d\x7b5884c45a\x7d\x7bTFFzMw==\x7d"]),
    ("openid.ext0.type.uid", ["http://openid.net/schema/person/guid"]),
    ("openid.ext0.mode", ["fetch_response"]),
    ("openid.ns", ["http://specs.openid.net/auth/2.0"]) ]

/-- A response whose only value key has the token `uid.2.1`. -/
def indexedResponse : Values :=
  [ ("openid.ns.ext0", ["http://openid.net/srv/ax/1.0"]),
    ("openid.ext0.mode", ["fetch_response"]),
    ("openid.ext0.value.uid.2.1", ["second"]) ]

/-- The test's response with one more value key, `openid.ext0.value.nick`. -/
def nickResponse : Values := ("openid.ext0.value.nick", ["joe", "jim"]) :: testResponse

/-- A response whose namespace key carries the AX namespace twice. -/
def twiceResponse : Values :=
  [ ("openid.ns.ext0", ["http://openid.net/srv/ax/1.0", "http://openid.net/srv/ax/1.0"]),
    ("openid.ext0.mode", ["fetch_response"]),
    ("openid.ext0.value.uid.1", ["123456"]) ]

/-- A response whose mode key carries `fetch_response` twice. -/
def modeTwiceResponse : Values :=
  [ ("openid.ns.ext0", ["http://openid.net/srv/ax/1.0"]),
    ("openid.ext0.mode", ["fetch_response", "fetch_response"]),
    ("openid.ext0.value.uid.1", ["123456"]) ]

/-! ## net/url: escaping, `Values.Encode`, `ParseQuery` -/

/-- Every character of the string is one byte (see the conventions above). -/
def IsBytes (s : String) : Prop := ∀ c ∈ s.data, c.toNat < 256

instance (s : String) : Decidable (IsBytes s) := by
  unfold IsBytes; infer_instance

namespace strings

/-- Go `strings.Contains(s, substr)`, scanning the characters of `s`. -/
def containsAux (sub : List Char) : List Char → Bool
  | [] => sub.isEmpty
  | c :: cs => sub.isPrefixOf (c :: cs) || containsAux sub cs

/-- Go `strings.Contains(s, substr)`. -/
def Contains (s substr : String) : Bool := containsAux substr.data s.data

/-- Go `strings.Cut(s, sep)` for a one-character separator: the text before
and after the first `sep`; without a `sep`, all of `s` and the empty string. -/
def Cut (s : String) (sep : Char) : String × String :=
  (⟨s.data.takeWhile (fun c => c != sep)⟩, ⟨(s.data.dropWhile (fun c => c != sep)).drop 1⟩)

/-- Go's comparison `a <= b` of strings: lexicographic on the bytes. -/
def lessEq : List Char → List Char → Bool
  | [], _ => true
  | _ :: _, [] => false
  | a :: as, b :: bs =>
    if a.toNat < b.toNat then true
    else if b.toNat < a.toNat then false
    else lessEq as bs

/-- Insert of `sort.Strings`: `k` goes before the first key that is not below it. -/
def insertSorted (k : String) : List String → List String
  | [] => [k]
  | x :: xs => if lessEq k.data x.data then k :: x :: xs else x :: insertSorted k xs

/-- Go `sort.Strings(keys)`, as an insertion sort. -/
def sortStrings : List String → List String
  | [] => []
  | k :: ks => insertSorted k (sortStrings ks)

end strings

namespace url

/-- Go `shouldEscape(c, encodeQueryComponent)`: everything but the unreserved
characters `A-Z a-z 0-9 - _ . ~` is escaped. -/
def shouldEscape (c : Char) : Bool :=
  !(('a'.toNat ≤ c.toNat && c.toNat ≤ 'z'.toNat) || ('A'.toNat ≤ c.toNat && c.toNat ≤ 'Z'.toNat) ||
    ('0'.toNat ≤ c.toNat && c.toNat ≤ '9'.toNat) ||
    c = '-' || c = '_' || c = '.' || c = '~')

/-- Go `upperhex[i]` with `upperhex = "0123456789ABCDEF"`. -/
def upperhex (i : Nat) : Char := "0123456789ABCDEF".data.getD i '0'

/-- The escaped form of one byte in `escape(s, encodeQueryComponent)`. -/
def escapeByte (c : Char) : List Char :=
  if shouldEscape c then
    if c = ' ' then ['+']
    else ['%', upperhex (c.toNat / 16 % 16), upperhex (c.toNat % 16)]
  else [c]

/-- Go `url.QueryEscape(s)`. -/
def QueryEscape (s : String) : String := ⟨s.data.flatMap escapeByte⟩

/-- Go `ishex(c)`. -/
def ishex (c : Char) : Bool :=
  ('0'.toNat ≤ c.toNat && c.toNat ≤ '9'.toNat) || ('a'.toNat ≤ c.toNat && c.toNat ≤ 'f'.toNat) ||
    ('A'.toNat ≤ c.toNat && c.toNat ≤ 'F'.toNat)

/-- Go `unhex(c)`. -/
def unhex (c : Char) : Nat :=
  if '0'.toNat ≤ c.toNat ∧ c.toNat ≤ '9'.toNat then c.toNat - '0'.toNat
  else if 'a'.toNat ≤ c.toNat ∧ c.toNat ≤ 'f'.toNat then c.toNat - 'a'.toNat + 10
  else if 'A'.toNat ≤ c.toNat ∧ c.toNat ≤ 'F'.toNat then c.toNat - 'A'.toNat + 10
  else 0

/-- Go `unescape(s, encodeQueryComponent)` on the characters of `s`: `%XX`
becomes the byte `XX`, `+` a space; a `%` not followed by two hex digits is an
error. -/
def unescapeAux : List Char → Except String (List Char)
  | [] => .ok []
  | c :: rest =>
    if c = '%' then
      match rest with
      | a :: b :: rest' =>
        if ishex a && ishex b then
          match unescapeAux rest' with
          | .ok out => .ok (Char.ofNat (unhex a * 16 + unhex b) :: out)
          | .error err => .error err
        else .error "invalid URL escape"
      | _ => .error "invalid URL escape"
    else
      match unescapeAux rest with
      | .ok out => .ok ((if c = '+' then ' ' else c) :: out)
      | .error err => .error err

/-- Go `url.QueryUnescape(s)`. -/
def QueryUnescape (s : String) : Except String String :=
  match unescapeAux s.data with
  | .ok out => .ok ⟨out⟩
  | .error err => .error err

/-- The `key=value` pairs `Values.Encode` writes, in the order it writes
them: keys sorted, the values of one key in their order. -/
def encodedPairs (v : Values) : List (String × String) :=
  (strings.sortStrings (GoMap.keys v)).flatMap
    (fun k => ((GoMap.get v k).getD []).map (fun x => (k, x)))

/-- The writes of `Values.Encode` into its buffer `buf`. -/
def encodeLoop : List (String × String) → String → String
  | [], buf => buf
  | (k, x) :: rest, buf =>
    let buf := if buf.length > 0 then buf ++ "&" else buf
    encodeLoop rest (buf ++ QueryEscape k ++ "=" ++ QueryEscape x)

/-- Go `v.Encode()`. -/
def Encode (v : Values) : String := encodeLoop (encodedPairs v) ""

/-- The body of the loop of `parseQuery` for one `&`-separated piece `key`:
the state is the map and the first error. -/
def parsePiece (key : String) (st : Values × Option String) : Values × Option String :=
  if strings.Contains key ";" then (st.1, some "invalid semicolon separator in query")
  else if key = "" then st
  else
    let kv := strings.Cut key '='
    match QueryUnescape kv.1 with
    | .error err1 => (st.1, if st.2 = none then some err1 else st.2)
    | .ok k =>
      match QueryUnescape kv.2 with
      | .error err1 => (st.1, if st.2 = none then some err1 else st.2)
      | .ok x => (st.1.Add k x, st.2)

/-- Go `url.ParseQuery(query)`: the pieces between `&` are handled in order;
the result is the map when no piece raised an error. -/
def ParseQuery (query : String) : Except String Values :=
  match (strings.Split query '&').foldl (fun st key => parsePiece key st) ([], none) with
  | (m, none) => .ok m
  | (_, some err) => .error err

end url

/-! ## buildRedirectURL -/

/-- The core parameters `buildRedirectURL` collects in `values` before it
serialises them. -/
def coreValues (opLocalID claimedID returnTo realm : String) : Values :=
  let values : Values := []
  let values := values.Add "openid.ns" "http://specs.openid.net/auth/2.0"
  let values := values.Add "openid.mode" "checkid_setup"
  let values := values.Add "openid.return_to" returnTo
  let values :=
    if claimedID.length > 0 then
      let values := values.Add "openid.claimed_id" claimedID
      if opLocalID.length > 0 then values.Add "openid.identity" opLocalID
      else values.Add "openid.identity" "http://specs.openid.net/auth/2.0/identifier_select"
    else values.Add "openid.identity" "http://specs.openid.net/auth/2.0/identifier_select"
  if realm.length > 0 then values.Add "openid.realm" realm else values

/-- Go `buildRedirectURL(opEndpoint, opLocalID, claimedID, returnTo, realm,
extraValues)`; the error it returns is always nil. -/
def buildRedirectURL (opEndpoint opLocalID claimedID returnTo realm : String)
    (extraValues : Option Values) : String :=
  let values := coreValues opLocalID claimedID returnTo realm
  let encodedExtraValues :=
    match extraValues with
    | some extra => "&" ++ url.Encode extra
    | none => ""
  if strings.Contains opEndpoint "?" then
    opEndpoint ++ "&" ++ url.Encode values ++ encodedExtraValues
  else opEndpoint ++ "?" ++ url.Encode values ++ encodedExtraValues

/-- The `RawQuery` of a URL that `url.Parse` accepts: the fragment is cut off
at the first `#`, and the query is the text after the first `?` of what is
left. -/
def queryPart (u : String) : String := (strings.Cut (strings.Cut u '#').1 '?').2

/-- Go `u.Query()` for the raw query of a URL: the map `ParseQuery` has
filled, whether or not it also reports an error. -/
def url.Query (rawQuery : String) : Values :=
  ((strings.Split rawQuery '&').foldl (fun st key => url.parsePiece key st) ([], none)).1

/-- The piece `key=value` that `Values.Encode` writes for one pair. -/
def url.encodedPiece (p : String × String) : String :=
  url.QueryEscape p.1 ++ "=" ++ url.QueryEscape p.2

/-- A response that declares the AX namespace only under the key `openid.ns.`
with the empty alias. -/
def emptyAliasResponse : Values :=
  [ ("openid.ns.", ["http://openid.net/srv/ax/1.0"]),
    ("openid..mode", ["fetch_response"]),
    ("openid..value.uid", ["123456"]) ]

/-- A response that declares the AX namespace under the aliases `a` and `b`;
only `b` has a value key. -/
def twoAliasResponse : Values :=
  [ ("openid.ns.a", ["http://openid.net/srv/ax/1.0"]),
    ("openid.a.mode", ["fetch_response"]),
    ("openid.ns.b", ["http://openid.net/srv/ax/1.0"]),
    ("openid.b.mode", ["fetch_response"]),
    ("openid.b.value.uid", ["123456"]) ]

/-- A response with namespace and mode and no value key. -/
def noValueResponse : Values :=
  [ ("openid.mode", ["id_res"]),
    ("openid.ns.ext0", ["http://openid.net/srv/ax/1.0"]),
    ("openid.ext0.mode", ["fetch_response"]),
    ("openid.ext0.type.uid", ["http://openid.net/schema/person/guid"]) ]

/-- The pair `(*map[string]string, error)` that `ParseAttributes(uri)`
returns, one case per `return` statement of the source: a nil pointer and a nil
error are `none`.  The result is `none` when the call does not return because
`v[0]` panics. -/
def ParseAttributesReturn (rt : Runtime) (uri : String) :
    Option (Option (GoMap String) × Option String) :=
  match rt.Parse uri with
  | .error err => some (none, some err)
  | .ok rawQuery =>
    match rt.ParseQuery rawQuery with
    | .error err => some (none, some err)
    | .ok values =>
      let alias_ := findAlias (rt.range1 values)
      if alias_.length = 0 then
        some (none, some "Did not find an alias for the attribute extension")
      else
        let v := (GoMap.get values ("openid." ++ alias_ ++ ".mode")).getD []
        if v = [] ∨ v.length ≠ 1 ∨ v.head? ≠ some "fetch_response" then
          some (none, some "The extension mode is not fetch_response")
        else
          match valueLoop ("openid." ++ alias_ ++ ".value.") (rt.range2 values) [] with
          | .ok out => some (some out, none)
          | .error _ => none

/-- A runtime keeps the guarantees of Go: what `url.ParseQuery` returns is a
well-formed map, and each `range` loop visits every entry exactly once. -/
def Runtime.Lawful (rt : Runtime) : Prop :=
  ∀ rawQuery values, rt.ParseQuery rawQuery = .ok values →
    values.WellFormed ∧ (rt.range1 values).Perm values ∧ (rt.range2 values).Perm values

/-- A runtime for URIs that `url.Parse` accepts: the raw query is
`queryPart uri`, it is decoded by `url.ParseQuery`, and the loops visit the
entries in the order `first` resp. `second` rearrange them. -/
def Runtime.netURL (first second : Values → Values) : Runtime where
  Parse := fun uri => .ok (queryPart uri)
  ParseQuery := url.ParseQuery
  range1 := first
  range2 := second

/-- The synthetic response to a request: the namespace declaration and the
type declarations `RequestAttributes` emits, `openid.ax.mode=fetch_response`,
and one key `openid.ax.value.<alias>` with the value `value alias` per alias
of the required and the optional map. -/
def syntheticResponse (required optional : Option (GoMap String)) (value : String → String) :
    Values :=
  (RequestAttributes required optional).filter
      (fun e => e.1 = "openid.ns.ax" || strings.HasPrefix e.1 "openid.ax.type.") ++
    [("openid.ax.mode", ["fetch_response"])] ++
    (GoMap.keys (entries required) ++ GoMap.keys (entries optional)).map
      (fun a => ("openid.ax.value." ++ a, [value a]))

/-! ## Lemmas: strings -/

namespace strings

theorem hasPrefix_iff (s p : String) : HasPrefix s p = true ↔ ∃ t : String, s = p ++ t := by
  unfold HasPrefix
  rw [List.isPrefixOf_iff_prefix]
  constructor
  · rintro ⟨r, hr⟩
    exact ⟨⟨r⟩, String.ext (by simp [hr])⟩
  · rintro ⟨t, rfl⟩
    exact ⟨t.data, by simp⟩

theorem hasPrefix_append (p t : String) : HasPrefix (p ++ t) p = true :=
  (hasPrefix_iff _ _).2 ⟨t, rfl⟩

theorem hasSuffix_iff (s p : String) : HasSuffix s p = true ↔ ∃ t : String, s = t ++ p := by
  unfold HasSuffix
  rw [List.isSuffixOf_iff_suffix]
  constructor
  · rintro ⟨r, hr⟩
    exact ⟨⟨r⟩, String.ext (by simp [hr])⟩
  · rintro ⟨t, rfl⟩
    exact ⟨t.data, by simp⟩

theorem length_eq (s : String) : s.length = s.data.length := rfl

theorem slice_append (p t : String) : slice (p ++ t) p.length (p ++ t).length = t := by
  apply String.ext
  simp only [slice, length_eq, String.data_append, List.length_append]
  rw [List.take_of_length_le (by simp), List.drop_left]

theorem append_left_cancel {p s t : String} (h : p ++ s = p ++ t) : s = t := by
  have := congrArg String.data h
  simp only [String.data_append, List.append_cancel_left_eq] at this
  exact String.ext this

theorem length_eq_zero_iff (s : String) : s.length = 0 ↔ s = "" := by
  constructor
  · intro h
    apply String.ext
    rw [length_eq] at h
    exact List.length_eq_zero.1 h
  · rintro rfl; rfl

theorem indexByte_eq_neg_one_iff (s : String) (c : Char) : IndexByte s c = -1 ↔ c ∉ s.data := by
  unfold IndexByte
  split
  · rename_i h
    constructor
    · intro h'; omega
    · intro h'; exact absurd h h'
  · rename_i h
    simp [h]

theorem indexByte_toNat (s : String) (c : Char) (h : c ∈ s.data) :
    (IndexByte s c).toNat = s.data.indexOf c := by
  unfold IndexByte
  simp [h]

end strings

/-! ## Lemmas: maps -/

namespace GoMap

variable {β : Type}

theorem get_set (m : GoMap β) (k k' : String) (v : β) :
    get (set m k v) k' = if k = k' then some v else get m k' := by
  induction m with
  | nil => simp [set, get]
  | cons e rest ih =>
    obtain ⟨a, b⟩ := e
    by_cases h : a = k
    · subst h
      by_cases h' : a = k' <;> simp [set, get, h']
    · by_cases h' : a = k'
      · subst h'
        have : ¬ k = a := fun e => h e.symm
        simp [set, get, h, this]
      · simp [set, get, h, h', ih]

theorem mem_of_get {m : GoMap β} {k : String} {v : β} (h : get m k = some v) : (k, v) ∈ m := by
  induction m with
  | nil => simp [get] at h
  | cons e rest ih =>
    obtain ⟨a, b⟩ := e
    by_cases h' : a = k
    · subst h'
      simp [get] at h
      simp [h]
    · simp [get, h'] at h
      exact List.mem_cons_of_mem _ (ih h)

theorem get_of_mem {m : GoMap β} {k : String} {v : β} (hn : (keys m).Nodup)
    (h : (k, v) ∈ m) : get m k = some v := by
  induction m with
  | nil => simp at h
  | cons e rest ih =>
    obtain ⟨a, b⟩ := e
    simp only [keys, List.map_cons, List.nodup_cons] at hn
    rcases List.mem_cons.1 h with h | h
    · cases h
      simp [get]
    · have hne : a ≠ k := by
        rintro rfl
        exact hn.1 (List.mem_map_of_mem Prod.fst h)
      simp [get, hne, ih hn.2 h]

theorem get_eq_none_iff (m : GoMap β) (k : String) : get m k = none ↔ k ∉ keys m := by
  induction m with
  | nil => simp [get, keys]
  | cons e rest ih =>
    obtain ⟨a, b⟩ := e
    by_cases h : a = k
    · simp [get, keys, h]
    · have h2 : ¬ k = a := fun e => h e.symm
      simp only [get, h, if_false, ih, keys, List.map_cons, List.mem_cons, h2, false_or]

end GoMap

/-! ## Lemmas: the loops of ParseAttributes -/

theorem isAxNamespace_iff (e : String × List String) :
    isAxNamespace e = true ↔ strings.HasPrefix e.1 "openid.ns." = true ∧ e.2 = [axNamespace] := by
  obtain ⟨k, v⟩ := e
  unfold isAxNamespace
  rcases v with _ | ⟨x, _ | ⟨y, r⟩⟩ <;> simp

theorem findAlias_of_none {entries : Values}
    (h : ∀ e ∈ entries, isAxNamespace e = false) : findAlias entries = "" := by
  unfold findAlias
  have : entries.find? isAxNamespace = none := by
    rw [List.find?_eq_none]
    intro e he
    simp [h e he]
  rw [this]

theorem findAlias_of_unique {entries : Values} {ext : String} (e0 : String × List String)
    (h0 : e0 ∈ entries) (h0ax : isAxNamespace e0 = true)
    (h : ∀ e ∈ entries, isAxNamespace e = true → e.1 = "openid.ns." ++ ext) :
    findAlias entries = ext := by
  unfold findAlias
  cases hf : entries.find? isAxNamespace with
  | none =>
    rw [List.find?_eq_none] at hf
    exact absurd h0ax (hf e0 h0)
  | some e =>
    have hmem := List.mem_of_find?_eq_some hf
    have hax := List.find?_some hf
    have hk := h e hmem hax
    simp only [hk]
    exact strings.slice_append "openid.ns." ext

theorem ParseAttributes_of_decodes {rt : Runtime} {uri : String} {values : Values}
    (hd : Decodes rt uri values) :
    ParseAttributes rt uri =
      if (findAlias (rt.range1 values)).length = 0 then .error (.error "Did not find an alias for the attribute extension")
      else
        if (GoMap.get values ("openid." ++ findAlias (rt.range1 values) ++ ".mode")).getD [] = [] ∨
            ((GoMap.get values ("openid." ++ findAlias (rt.range1 values) ++ ".mode")).getD []).length ≠ 1 ∨
            ((GoMap.get values ("openid." ++ findAlias (rt.range1 values) ++ ".mode")).getD []).head? ≠
              some "fetch_response"
        then .error (.error "The extension mode is not fetch_response")
        else valueLoop ("openid." ++ findAlias (rt.range1 values) ++ ".value.") (rt.range2 values) [] := by
  obtain ⟨q, h1, h2, -⟩ := hd
  simp only [ParseAttributes, h1, h2]

/-- The mode test of `ParseAttributes` fails exactly when the value list is
not the single value `fetch_response`. -/
theorem modeTest_iff (o : Option (List String)) :
    (o.getD [] = [] ∨ (o.getD []).length ≠ 1 ∨ (o.getD []).head? ≠ some "fetch_response") ↔
      o ≠ some ["fetch_response"] := by
  rcases o with _ | v
  · simp
  · rcases v with _ | ⟨x, _ | ⟨y, r⟩⟩ <;> simp

theorem valueLoop_total (vPfx : String) (entries : Values) (out : GoMap String)
    (h : ∀ e ∈ entries, e.2 ≠ []) : ∃ m, valueLoop vPfx entries out = .ok m := by
  induction entries generalizing out with
  | nil => exact ⟨out, rfl⟩
  | cons e rest ih =>
    obtain ⟨k, v⟩ := e
    have hrest : ∀ e ∈ rest, e.2 ≠ [] := fun e he => h e (List.mem_cons_of_mem _ he)
    unfold valueLoop
    cases hva : valueAlias vPfx k with
    | none => exact ih out hrest
    | some a =>
      cases v with
      | nil => exact absurd rfl (h (k, []) (List.mem_cons_self _ _))
      | cons v0 vs => exact ih _ hrest

theorem valueLoop_untouched (vPfx : String) (a : String) (entries : Values) (out m : GoMap String)
    (hrun : valueLoop vPfx entries out = .ok m)
    (h : ∀ e ∈ entries, valueAlias vPfx e.1 ≠ some a) : GoMap.get m a = GoMap.get out a := by
  induction entries generalizing out with
  | nil =>
    simp only [valueLoop, Except.ok.injEq] at hrun
    rw [hrun]
  | cons e rest ih =>
    obtain ⟨k, v⟩ := e
    have hrest : ∀ e ∈ rest, valueAlias vPfx e.1 ≠ some a :=
      fun e he => h e (List.mem_cons_of_mem _ he)
    have hk := h (k, v) (List.mem_cons_self _ _)
    unfold valueLoop at hrun
    cases hva : valueAlias vPfx k with
    | none =>
      rw [hva] at hrun
      exact ih out hrun hrest
    | some b =>
      rw [hva] at hrun
      cases v with
      | nil => simp at hrun
      | cons v0 vs =>
        simp only at hrun
        rw [ih _ hrun hrest, GoMap.get_set]
        have : b ≠ a := by
          rintro rfl
          exact hk hva
        simp [this]

/-- After a successful value loop, an alias some entry resolves to holds the
first value of an entry resolving to it. -/
theorem valueLoop_written (vPfx : String) (a : String) (entries : Values) (out m : GoMap String)
    (hrun : valueLoop vPfx entries out = .ok m)
    (h : ∃ e ∈ entries, valueAlias vPfx e.1 = some a) :
    ∃ e ∈ entries, valueAlias vPfx e.1 = some a ∧ ∃ x, e.2.head? = some x ∧ GoMap.get m a = some x := by
  induction entries generalizing out with
  | nil => simp at h
  | cons e rest ih =>
    obtain ⟨k, v⟩ := e
    by_cases hlater : ∃ e ∈ rest, valueAlias vPfx e.1 = some a
    · have hrun' : ∃ out', valueLoop vPfx rest out' = .ok m := by
        unfold valueLoop at hrun
        cases hva : valueAlias vPfx k with
        | none => rw [hva] at hrun; exact ⟨_, hrun⟩
        | some b =>
          rw [hva] at hrun
          cases v with
          | nil => simp at hrun
          | cons v0 vs => exact ⟨_, hrun⟩
      obtain ⟨out', hrun'⟩ := hrun'
      obtain ⟨e, he, hea, x, hx, hm⟩ := ih out' hrun' hlater
      exact ⟨e, List.mem_cons_of_mem _ he, hea, x, hx, hm⟩
    · obtain ⟨e, he, hea⟩ := h
      rcases List.mem_cons.1 he with rfl | he'
      · simp only at hea
        unfold valueLoop at hrun
        rw [hea] at hrun
        cases v with
        | nil => simp at hrun
        | cons v0 vs =>
          simp only at hrun
          have hrest : ∀ e ∈ rest, valueAlias vPfx e.1 ≠ some a :=
            fun e he h' => hlater ⟨e, he, h'⟩
          refine ⟨(k, v0 :: vs), List.mem_cons_self _ _, hea, v0, rfl, ?_⟩
          rw [valueLoop_untouched vPfx a rest _ m hrun hrest, GoMap.get_set]
          simp
      · exact absurd ⟨e, he', hea⟩ hlater

/-! ## Lemmas: the alias of a value key -/

theorem take_indexOf_append (c : Char) (l : List Char) (h : c ∈ l) :
    ∃ r, l = l.take (l.indexOf c) ++ c :: r ∧ c ∉ l.take (l.indexOf c) := by
  induction l with
  | nil => simp at h
  | cons x xs ih =>
    by_cases hx : x = c
    · subst hx
      exact ⟨xs, by simp⟩
    · have hc : c ∈ xs := by
        rcases List.mem_cons.1 h with h | h
        · exact absurd h.symm hx
        · exact h
      obtain ⟨r, hr, hn⟩ := ih hc
      refine ⟨r, ?_, ?_⟩
      · rw [List.indexOf_cons_ne _ hx, List.take_succ_cons, List.cons_append, ← hr]
      · rw [List.indexOf_cons_ne _ hx, List.take_succ_cons]
        intro hmem
        rcases List.mem_cons.1 hmem with h' | h'
        · exact hx h'.symm
        · exact hn h'

theorem indexOf_append_of_not_mem (c : Char) (l r : List Char) (h : c ∉ l) :
    (l ++ c :: r).indexOf c = l.length := by
  induction l with
  | nil => simp
  | cons x xs ih =>
    have hx : x ≠ c := fun e => h (by simp [e])
    have hxs : c ∉ xs := fun e => h (List.mem_cons_of_mem _ e)
    rw [List.cons_append, List.indexOf_cons_ne _ hx, ih hxs, List.length_cons]

theorem valueAlias_plain (vPfx t : String) (h : '.' ∉ t.data) :
    valueAlias vPfx (vPfx ++ t) = some t := by
  unfold valueAlias
  rw [strings.hasPrefix_append, strings.slice_append]
  simp [(strings.indexByte_eq_neg_one_iff t '.').2 h]

theorem valueAlias_indexed (vPfx a : String) (h : '.' ∉ a.data) :
    valueAlias vPfx (vPfx ++ (a ++ ".1")) = some a := by
  unfold valueAlias
  rw [strings.hasPrefix_append, strings.slice_append]
  have hmem : '.' ∈ (a ++ ".1").data := by simp
  have hne : strings.IndexByte (a ++ ".1") '.' ≠ -1 := by
    rw [Ne, strings.indexByte_eq_neg_one_iff]
    exact fun h' => h' hmem
  have hsuf : strings.HasSuffix (a ++ ".1") ".1" = true := (strings.hasSuffix_iff _ _).2 ⟨a, rfl⟩
  have hix : (strings.IndexByte (a ++ ".1") '.').toNat = a.data.length := by
    rw [strings.indexByte_toNat _ _ hmem]
    have : (a ++ ".1").data = a.data ++ '.' :: ['1'] := by simp
    rw [this, indexOf_append_of_not_mem _ _ _ h]
  simp only [hne, hsuf, hix, ne_eq, not_false_eq_true, if_true, Bool.not_true]
  simp only [Bool.false_eq_true, if_false, Option.some.injEq]
  apply String.ext
  simp [strings.slice]

/-- The keys the value loop stores under alias `a`: `vPfx ++ a`, or `vPfx`
followed by a token that starts with `a ++ "."` and ends in `.1`.  The alias
never contains a `.`. -/
theorem valueAlias_some {vPfx k a : String} (h : valueAlias vPfx k = some a) :
    '.' ∉ a.data ∧ ∃ t : String, k = vPfx ++ t ∧
      (t = a ∨ (strings.HasPrefix t (a ++ ".") = true ∧ strings.HasSuffix t ".1" = true)) := by
  unfold valueAlias at h
  by_cases hp : strings.HasPrefix k vPfx = true
  · obtain ⟨t, rfl⟩ := (strings.hasPrefix_iff _ _).1 hp
    rw [strings.hasPrefix_append, strings.slice_append] at h
    simp only [if_true] at h
    by_cases hdot : '.' ∈ t.data
    · have hne : strings.IndexByte t '.' ≠ -1 := by
        rw [Ne, strings.indexByte_eq_neg_one_iff]
        exact fun h' => h' hdot
      rw [if_pos hne] at h
      by_cases hs : strings.HasSuffix t ".1" = true
      · simp only [hs, Bool.not_true, Bool.false_eq_true, if_false, Option.some.injEq] at h
        rw [strings.indexByte_toNat _ _ hdot] at h
        obtain ⟨r, hr, hn⟩ := take_indexOf_append '.' t.data hdot
        have ha : a.data = t.data.take (t.data.indexOf '.') := by
          rw [← h]; simp [strings.slice]
        refine ⟨by rw [ha]; exact hn, t, rfl, Or.inr ⟨?_, hs⟩⟩
        rw [strings.hasPrefix_iff]
        refine ⟨⟨r⟩, String.ext ?_⟩
        rw [String.data_append, String.data_append, ha]
        simpa using hr
      · simp [hs] at h
    · have he : strings.IndexByte t '.' = -1 := (strings.indexByte_eq_neg_one_iff t '.').2 hdot
      simp only [he, ne_eq, not_true_eq_false, if_false, Option.some.injEq] at h
      subst h
      exact ⟨hdot, t, rfl, Or.inl rfl⟩
  · simp [hp] at h

/-! ## Lemmas: ParseAttributes after the namespace loop -/

theorem findAlias_of_declared {rt : Runtime} {uri : String} {values : Values} {ext : String}
    (hd : Decodes rt uri values)
    (hns : GoMap.get values ("openid.ns." ++ ext) = some [axNamespace])
    (huniq : ∀ k, strings.HasPrefix k "openid.ns." = true →
      GoMap.get values k = some [axNamespace] → k = "openid.ns." ++ ext) :
    findAlias (rt.range1 values) = ext := by
  obtain ⟨q, -, -, hwf, hp1, -⟩ := hd
  refine findAlias_of_unique ("openid.ns." ++ ext, [axNamespace]) ?_ ?_ ?_
  · exact hp1.mem_iff.2 (GoMap.mem_of_get hns)
  · exact (isAxNamespace_iff _).2 ⟨strings.hasPrefix_append _ _, rfl⟩
  · intro e he hax
    obtain ⟨hpre, hv⟩ := (isAxNamespace_iff e).1 hax
    have hmem : (e.1, e.2) ∈ values := hp1.mem_iff.1 he
    have hget := GoMap.get_of_mem hwf.1 hmem
    rw [hv] at hget
    exact huniq e.1 hpre hget

theorem ParseAttributes_of_alias {rt : Runtime} {uri : String} {values : Values} {ext : String}
    (hd : Decodes rt uri values) (hal : findAlias (rt.range1 values) = ext) (hext : ext ≠ "") :
    ParseAttributes rt uri =
      if GoMap.get values ("openid." ++ ext ++ ".mode") ≠ some ["fetch_response"]
      then .error (.error "The extension mode is not fetch_response")
      else valueLoop ("openid." ++ ext ++ ".value.") (rt.range2 values) [] := by
  rw [ParseAttributes_of_decodes hd, hal]
  have hlen : ext.length ≠ 0 := fun h => hext ((strings.length_eq_zero_iff ext).1 h)
  rw [if_neg hlen]
  by_cases hm : GoMap.get values ("openid." ++ ext ++ ".mode") = some ["fetch_response"]
  · rw [if_neg ((modeTest_iff _).not.2 (not_not.2 hm)), if_neg (not_not.2 hm)]
  · rw [if_pos ((modeTest_iff _).2 hm), if_pos hm]

theorem valueLoop_ne_error (vPfx msg : String) (entries : Values) (out : GoMap String) :
    valueLoop vPfx entries out ≠ .error (.error msg) := by
  induction entries generalizing out with
  | nil => simp [valueLoop]
  | cons e rest ih =>
    obtain ⟨k, v⟩ := e
    unfold valueLoop
    cases valueAlias vPfx k with
    | none => exact ih out
    | some a =>
      cases v with
      | nil => simp
      | cons v0 vs => exact ih _

/-! ## ParseAttributes: the claims -/

/-- C1. When the decoded query declares the AX namespace under exactly one key
`openid.ns.<ext>` (no other key with prefix `openid.ns.` has the value list
`[ns]`, and `ext` is not empty), `openid.<ext>.mode` is the single value
`fetch_response`, the key `openid.<ext>.value.<a>.1` (no `.` in `a`) has first
value `v`, and no other value key resolves to alias `a` (neither the token `a`
nor a token that starts with `a.` and ends in `.1`), then `ParseAttributes`
returns a map `m` without error and `m[a] = v`. -/
theorem ParseAttributes_indexed_value (rt : Runtime) (uri : String) (values : Values)
    (ext a v : String) (more : List String)
    (hd : Decodes rt uri values)
    (hext : ext ≠ "")
    (hns : GoMap.get values ("openid.ns." ++ ext) = some [axNamespace])
    (huniq : ∀ k, strings.HasPrefix k "openid.ns." = true →
      GoMap.get values k = some [axNamespace] → k = "openid.ns." ++ ext)
    (hmode : GoMap.get values ("openid." ++ ext ++ ".mode") = some ["fetch_response"])
    (ha : '.' ∉ a.data)
    (hval : GoMap.get values ("openid." ++ ext ++ ".value." ++ a ++ ".1") = some (v :: more))
    (hother : ∀ t : String, t ≠ a ++ ".1" →
      (GoMap.get values ("openid." ++ ext ++ ".value." ++ t)).isSome = true →
      ¬ (t = a ∨ (strings.HasPrefix t (a ++ ".") = true ∧ strings.HasSuffix t ".1" = true))) :
    ∃ m, ParseAttributes rt uri = .ok m ∧ GoMap.get m a = some v := by
  have hal := findAlias_of_declared hd hns huniq
  rw [ParseAttributes_of_alias hd hal hext, if_neg (not_not.2 hmode)]
  obtain ⟨q, -, -, hwf, -, hp2⟩ := hd
  have hne : ∀ e ∈ rt.range2 values, e.2 ≠ [] := fun e he => hwf.2 e (hp2.mem_iff.1 he)
  obtain ⟨m, hm⟩ := valueLoop_total ("openid." ++ ext ++ ".value.") (rt.range2 values) [] hne
  refine ⟨m, hm, ?_⟩
  rw [String.append_assoc] at hval
  have hkey : ("openid." ++ ext ++ ".value." ++ (a ++ ".1"), v :: more) ∈ rt.range2 values :=
    hp2.mem_iff.2 (GoMap.mem_of_get hval)
  obtain ⟨e, he, hea, x, hx, hget⟩ :=
    valueLoop_written _ a _ _ m hm ⟨_, hkey, valueAlias_indexed _ a ha⟩
  obtain ⟨-, t, hk, ht⟩ := valueAlias_some hea
  have hev : GoMap.get values e.1 = some e.2 :=
    GoMap.get_of_mem hwf.1 (hp2.mem_iff.1 he)
  by_cases hta : t = a ++ ".1"
  · rw [hk, hta, hval] at hev
    have : e.2 = v :: more := (Option.some.inj hev).symm
    rw [this] at hx
    simp only [List.head?_cons, Option.some.injEq] at hx
    rw [hget, hx]
  · exact absurd ht (hother t hta (by rw [← hk, hev]; rfl))

/-- C1, witness: the response of `TestParseAttributes` decodes to exactly
`uid -> 123456`, whatever order the value loop takes. -/
theorem ParseAttributes_indexed_value_witness :
    (∃ m, ParseAttributes (Runtime.fixed testResponse id List.reverse) "http://example.com/?" = .ok m ∧
      GoMap.get m "uid" = some "123456") ∧
    ParseAttributes (Runtime.fixed testResponse id List.reverse) "http://example.com/?" =
      .ok [("uid", "123456")] :=
  ⟨ParseAttributes_indexed_value (Runtime.fixed testResponse id List.reverse) "http://example.com/?"
      testResponse "ext0" "uid" "123456" []
      ⟨"http://example.com/?", rfl, rfl, by decide, List.Perm.refl _, List.reverse_perm _⟩
      (by decide) (by decide)
      (fun k _ hk =>
        (by decide : ∀ e ∈ testResponse, e.2 = [axNamespace] → e.1 = "openid.ns." ++ "ext0")
          (k, [axNamespace]) (GoMap.mem_of_get hk) rfl)
      (by decide) (by decide) (by decide)
      (fun t hne hsome => by
        exfalso
        obtain ⟨w, hw⟩ := Option.isSome_iff_exists.1 hsome
        have hk := (by decide : ∀ e ∈ testResponse,
            strings.HasPrefix e.1 ("openid." ++ "ext0" ++ ".value.") = true →
              e.1 = "openid." ++ "ext0" ++ ".value." ++ ("uid" ++ ".1"))
          _ (GoMap.mem_of_get hw) (strings.hasPrefix_append _ t)
        exact hne (strings.append_left_cancel hk)),
    by decide⟩

/-- C2, at the failing input: the value key `openid.ext0.value.uid.2.1`, whose
index part after the separator is `2.1`, is stored under alias `uid`; and when
the response also carries `openid.ext0.value.uid.1`, visited first, the value
of index `2.1` replaces the first value. -/
theorem ParseAttributes_index_suffix_accepted :
    ParseAttributes (Runtime.fixed indexedResponse id id) "http://example.com/?" =
      .ok [("uid", "second")] ∧
    ParseAttributes (Runtime.fixed
        (("openid.ext0.value.uid.1", ["first"]) :: indexedResponse) id id) "http://example.com/?" =
      .ok [("uid", "second")] := by
  decide

/-- C3. For a response `ParseAttributes` decodes successfully to `m`, with
`ext` the extension alias the namespace loop selected, every key
`openid.<ext>.value.<token>` whose token has no `.` makes `token` a key of
`m`; and when no other value key resolves to that alias (no key
`openid.<ext>.value.<t>` with `t` starting with `token.` and ending in `.1`),
`m[token]` is the first entry of the key's value list. -/
theorem ParseAttributes_plain_value (rt : Runtime) (uri : String) (values : Values)
    (m : GoMap String) (token : String) (v : List String)
    (hd : Decodes rt uri values)
    (hrun : ParseAttributes rt uri = .ok m)
    (htok : '.' ∉ token.data)
    (hval : GoMap.get values
      ("openid." ++ findAlias (rt.range1 values) ++ ".value." ++ token) = some v) :
    (GoMap.get m token).isSome = true ∧
    ((∀ t : String, strings.HasPrefix t (token ++ ".") = true → strings.HasSuffix t ".1" = true →
        GoMap.get values ("openid." ++ findAlias (rt.range1 values) ++ ".value." ++ t) = none) →
      ∃ x, v.head? = some x ∧ GoMap.get m token = some x) := by
  rw [ParseAttributes_of_decodes hd] at hrun
  split at hrun
  · simp at hrun
  split at hrun
  · simp at hrun
  obtain ⟨q, -, -, hwf, -, hp2⟩ := hd
  have hkey := hp2.mem_iff.2 (GoMap.mem_of_get hval)
  obtain ⟨e, he, hea, x, hx, hget⟩ :=
    valueLoop_written _ token _ _ m hrun ⟨_, hkey, valueAlias_plain _ token htok⟩
  refine ⟨by rw [hget]; rfl, fun hother => ⟨x, ?_, hget⟩⟩
  obtain ⟨-, t, hk, ht⟩ := valueAlias_some hea
  have hev : GoMap.get values e.1 = some e.2 :=
    GoMap.get_of_mem hwf.1 (hp2.mem_iff.1 he)
  rcases ht with rfl | ⟨h1, h2⟩
  · rw [hk, hval] at hev
    rw [Option.some.inj hev]
    exact hx
  · rw [hk, hother t h1 h2] at hev
    simp at hev

/-- C3, witness: in a response that carries `openid.ext0.value.nick` with the
values `joe`, `jim` next to the test's keys, the token `nick` is read verbatim
and holds the first value. -/
theorem ParseAttributes_plain_value_witness :
    (GoMap.get [("nick", "joe"), ("uid", "123456")] "nick").isSome = true ∧
      ∃ x, ["joe", "jim"].head? = some x ∧
        GoMap.get [("nick", "joe"), ("uid", "123456")] "nick" = some x := by
  have h := ParseAttributes_plain_value (Runtime.fixed nickResponse id id)
    "http://example.com/?" nickResponse
    [("nick", "joe"), ("uid", "123456")] "nick" ["joe", "jim"]
    ⟨"http://example.com/?", rfl, rfl, by decide, List.Perm.refl _, List.Perm.refl _⟩
    (by decide) (by decide) (by decide)
  refine ⟨h.1, h.2 ?_⟩
  intro t h1 _
  have hal : findAlias ((Runtime.fixed nickResponse id id).range1 nickResponse) = "ext0" := by
    decide
  rw [hal]
  cases hget : GoMap.get nickResponse ("openid." ++ "ext0" ++ ".value." ++ t) with
  | none => rfl
  | some w =>
    exfalso
    have hk := (by decide : ∀ e ∈ nickResponse,
        strings.HasPrefix e.1 ("openid." ++ "ext0" ++ ".value.") = true →
          e.1 = "openid." ++ "ext0" ++ ".value." ++ "nick" ∨
            e.1 = "openid." ++ "ext0" ++ ".value." ++ "uid.1")
      _ (GoMap.mem_of_get hget) (strings.hasPrefix_append _ t)
    rcases hk with hk | hk
    · rw [strings.append_left_cancel hk] at h1
      exact absurd h1 (by decide)
    · rw [strings.append_left_cancel hk] at h1
      exact absurd h1 (by decide)

/-- C4. When the URI parses and no key of the decoded query with prefix
`openid.ns.` has the value list `[ns]` (a key that carries the namespace twice
does not count), `ParseAttributes` returns no map and the error
"Did not find an alias for the attribute extension". -/
theorem ParseAttributes_missing_namespace (rt : Runtime) (uri : String) (values : Values)
    (hd : Decodes rt uri values)
    (hnone : ∀ k, strings.HasPrefix k "openid.ns." = true →
      GoMap.get values k ≠ some [axNamespace]) :
    ParseAttributes rt uri =
      .error (.error "Did not find an alias for the attribute extension") := by
  rw [ParseAttributes_of_decodes hd]
  have hal : findAlias (rt.range1 values) = "" := by
    apply findAlias_of_none
    intro e he
    obtain ⟨q, -, -, hwf, hp1, -⟩ := hd
    have hget : GoMap.get values e.1 = some e.2 :=
      GoMap.get_of_mem hwf.1 (hp1.mem_iff.1 he)
    cases hax : isAxNamespace e with
    | false => rfl
    | true =>
      obtain ⟨hpre, hv⟩ := (isAxNamespace_iff e).1 hax
      rw [hv] at hget
      exact absurd hget (hnone e.1 hpre)
  rw [hal]
  rfl

/-- C4, witness: a response whose only `openid.ns.` key carries the AX
namespace twice. -/
theorem ParseAttributes_missing_namespace_witness :
    ParseAttributes (Runtime.fixed twiceResponse List.reverse id) "http://example.com/?" =
      .error (.error "Did not find an alias for the attribute extension") :=
  ParseAttributes_missing_namespace (Runtime.fixed twiceResponse List.reverse id)
    "http://example.com/?" twiceResponse
    ⟨"http://example.com/?", rfl, rfl, by decide, List.reverse_perm _, List.Perm.refl _⟩
    (fun k _ hk =>
      (by decide : ∀ e ∈ twiceResponse, e.2 ≠ [axNamespace]) _ (GoMap.mem_of_get hk) rfl)

/-- C5. When the decoded query declares the AX namespace under exactly one key
`openid.ns.<ext>` with `ext` not empty, `ParseAttributes` fails with the error
"The extension mode is not fetch_response" if and only if the value list of
`openid.<ext>.mode` is not exactly `[fetch_response]` (absent, several
entries, or one other entry). -/
theorem ParseAttributes_mode (rt : Runtime) (uri : String) (values : Values) (ext : String)
    (hd : Decodes rt uri values)
    (hext : ext ≠ "")
    (hns : GoMap.get values ("openid.ns." ++ ext) = some [axNamespace])
    (huniq : ∀ k, strings.HasPrefix k "openid.ns." = true →
      GoMap.get values k = some [axNamespace] → k = "openid.ns." ++ ext) :
    ParseAttributes rt uri = .error (.error "The extension mode is not fetch_response") ↔
      GoMap.get values ("openid." ++ ext ++ ".mode") ≠ some ["fetch_response"] := by
  rw [ParseAttributes_of_alias hd (findAlias_of_declared hd hns huniq) hext]
  by_cases hm : GoMap.get values ("openid." ++ ext ++ ".mode") = some ["fetch_response"]
  · rw [if_neg (not_not.2 hm)]
    exact ⟨fun h => absurd h (valueLoop_ne_error _ _ _ _), fun h => absurd hm h⟩
  · rw [if_pos hm]
    exact ⟨fun _ => hm, fun _ => rfl⟩

/-- C5, witness: a mode key that carries `fetch_response` twice is rejected. -/
theorem ParseAttributes_mode_witness :
    ParseAttributes (Runtime.fixed modeTwiceResponse id id) "http://example.com/?" =
      .error (.error "The extension mode is not fetch_response") :=
  (ParseAttributes_mode (Runtime.fixed modeTwiceResponse id id) "http://example.com/?"
    modeTwiceResponse "ext0"
    ⟨"http://example.com/?", rfl, rfl, by decide, List.Perm.refl _, List.Perm.refl _⟩
    (by decide) (by decide)
    (fun k _ hk =>
      (by decide : ∀ e ∈ modeTwiceResponse, e.2 = [axNamespace] → e.1 = "openid.ns." ++ "ext0")
        (k, [axNamespace]) (GoMap.mem_of_get hk) rfl)).2 (by decide)

/-! ## Lemmas: RequestAttributes -/

theorem Values.get_Add (vs : Values) (k v k' : String) :
    GoMap.get (Values.Add vs k v) k' =
      if k = k' then some ((GoMap.get vs k).getD [] ++ [v]) else GoMap.get vs k' := by
  unfold Values.Add
  rw [GoMap.get_set]

theorem SameMap.perm {β : Type} {m m' : Option (GoMap β)} (h : SameMap m' m) :
    (entries m').Perm (entries m) := by
  cases m <;> cases m' <;> simp_all [SameMap, entries]

theorem declared_cons (k a u : String) (es : GoMap String) :
    declared k ((a, u) :: es) =
      if "openid.ax.type." ++ a = k then u :: declared k es else declared k es := by
  unfold declared
  by_cases h : "openid.ax.type." ++ a = k <;> simp [List.filter_cons, h]

theorem declared_of_other_key (k : String) (es : GoMap String)
    (h : strings.HasPrefix k "openid.ax.type." = false) : declared k es = [] := by
  induction es with
  | nil => rfl
  | cons e rest ih =>
    obtain ⟨a, u⟩ := e
    rw [declared_cons, ih]
    have : "openid.ax.type." ++ a ≠ k := by
      rintro rfl
      rw [strings.hasPrefix_append] at h
      exact Bool.noConfusion h
    rw [if_neg this]

theorem declared_eq_nil_of_not_mem (a : String) (es : GoMap String) (h : a ∉ GoMap.keys es) :
    declared ("openid.ax.type." ++ a) es = [] := by
  induction es with
  | nil => rfl
  | cons e rest ih =>
    obtain ⟨b, u⟩ := e
    simp only [GoMap.keys, List.map_cons, List.mem_cons, not_or] at h
    rw [declared_cons, ih h.2]
    have : "openid.ax.type." ++ b ≠ "openid.ax.type." ++ a :=
      fun e => h.1 (strings.append_left_cancel e).symm
    rw [if_neg this]

theorem declared_of_mem {a u : String} {es : GoMap String} (hn : (GoMap.keys es).Nodup)
    (h : (a, u) ∈ es) : declared ("openid.ax.type." ++ a) es = [u] := by
  induction es with
  | nil => simp at h
  | cons e rest ih =>
    obtain ⟨b, w⟩ := e
    simp only [GoMap.keys, List.map_cons, List.nodup_cons] at hn
    rw [declared_cons]
    rcases List.mem_cons.1 h with h | h
    · cases h
      rw [if_pos rfl, declared_eq_nil_of_not_mem a rest hn.1]
    · have hne : b ≠ a := by
        rintro rfl
        exact hn.1 (List.mem_map_of_mem Prod.fst h)
      have : "openid.ax.type." ++ b ≠ "openid.ax.type." ++ a :=
        fun e => hne (strings.append_left_cancel e)
      rw [if_neg this, ih hn.2 h]

theorem mem_of_mem_declared {k u : String} {es : GoMap String} (h : u ∈ declared k es) :
    ∃ a, k = "openid.ax.type." ++ a ∧ (a, u) ∈ es := by
  unfold declared at h
  obtain ⟨e, he, rfl⟩ := List.mem_map.1 h
  obtain ⟨hmem, hk⟩ := List.mem_filter.1 he
  exact ⟨e.1, (of_decide_eq_true hk).symm, hmem⟩

theorem mem_declared_of_mem {a u : String} {es : GoMap String} (h : (a, u) ∈ es) :
    u ∈ declared ("openid.ax.type." ++ a) es := by
  unfold declared
  exact List.mem_map.2 ⟨(a, u), List.mem_filter.2 ⟨h, by simp⟩, rfl⟩

/-- The declarations for one key do not depend on the traversal order. -/
theorem declared_perm {es es' : GoMap String} (k : String) (hn : (GoMap.keys es).Nodup)
    (hp : es'.Perm es) : declared k es' = declared k es := by
  have hperm : (declared k es').Perm (declared k es) := (hp.filter _).map _
  by_cases hnil : declared k es = []
  · rw [hnil] at hperm ⊢
    exact List.perm_nil.1 hperm
  · obtain ⟨u, hu⟩ := List.exists_mem_of_ne_nil _ hnil
    obtain ⟨a, rfl, hmem⟩ := mem_of_mem_declared hu
    rw [declared_of_mem hn hmem] at hperm ⊢
    exact List.perm_singleton.1 hperm

theorem typeLoop_get (es : GoMap String) (vs : Values) (l k : String) :
    GoMap.get (typeLoop es vs l).1 k =
      if declared k es = [] then GoMap.get vs k
      else some ((GoMap.get vs k).getD [] ++ declared k es) := by
  induction es generalizing vs l with
  | nil => simp [typeLoop, declared]
  | cons e rest ih =>
    obtain ⟨a, u⟩ := e
    simp only [typeLoop]
    rw [ih, declared_cons, Values.get_Add]
    by_cases hk : "openid.ax.type." ++ a = k
    · subst hk
      by_cases hr : declared ("openid.ax.type." ++ a) rest = [] <;> simp [hr]
    · simp [hk]

theorem typeLoop_list_eq_of_ne (es : GoMap String) (vs : Values) (l : String) (hl : l ≠ "") :
    (typeLoop es vs l).2.data = l.data ++ (GoMap.keys es).flatMap (fun n => ',' :: n.data) := by
  induction es generalizing vs l with
  | nil => simp [typeLoop, GoMap.keys]
  | cons e rest ih =>
    obtain ⟨a, u⟩ := e
    have hpos : l.length > 0 := by
      rcases Nat.eq_zero_or_pos l.length with h | h
      · exact absurd ((strings.length_eq_zero_iff l).1 h) hl
      · exact h
    have hne : l ++ "," ++ a ≠ "" := by
      intro h
      have := congrArg String.data h
      simp at this
    simp only [typeLoop, hpos, if_true]
    rw [ih _ _ hne]
    simp [GoMap.keys]

theorem typeLoop_list_pos_iff (es : GoMap String) (vs : Values) (l : String) :
    (typeLoop es vs l).2.length > 0 ↔ l ≠ "" ∨ ∃ e ∈ es, e.1 ≠ "" := by
  induction es generalizing vs l with
  | nil =>
    simp only [typeLoop, List.not_mem_nil, false_and, exists_false, or_false]
    rw [gt_iff_lt, Nat.pos_iff_ne_zero, Ne, strings.length_eq_zero_iff]
  | cons e rest ih =>
    obtain ⟨a, u⟩ := e
    simp only [typeLoop]
    rw [ih]
    by_cases hl : l = ""
    · subst hl
      have h0 : ¬ ("".length > 0) := by decide
      have hemp : "" ++ a = a := String.ext (by simp)
      simp only [h0, if_false, hemp]
      simp
    · have hpos : l.length > 0 := by
        rcases Nat.eq_zero_or_pos l.length with h | h
        · exact absurd ((strings.length_eq_zero_iff l).1 h) hl
        · exact h
      have hne : l ++ "," ++ a ≠ "" := by
        intro h
        have := congrArg String.data h
        simp at this
      simp [hpos, hne, hl]

theorem splitAux_skip (sep : Char) (pre rest cur : List Char) (h : sep ∉ pre) :
    strings.splitAux sep (pre ++ rest) cur = strings.splitAux sep rest (pre.reverse ++ cur) := by
  induction pre generalizing cur with
  | nil => rfl
  | cons c cs ih =>
    have hc : c ≠ sep := fun e => h (by simp [e])
    have hcs : sep ∉ cs := fun e => h (List.mem_cons_of_mem _ e)
    rw [List.cons_append]
    show (if c = sep then _ else strings.splitAux sep (cs ++ rest) (c :: cur)) = _
    rw [if_neg hc, ih _ hcs]
    simp

theorem splitAux_fields (sep : Char) (names : List String) (cur : List Char)
    (h : ∀ n ∈ names, sep ∉ n.data) :
    strings.splitAux sep (names.flatMap (fun n => sep :: n.data)) cur = ⟨cur.reverse⟩ :: names := by
  induction names generalizing cur with
  | nil => rfl
  | cons n ns ih =>
    have hn : sep ∉ n.data := h n (List.mem_cons_self _ _)
    have hns : ∀ m ∈ ns, sep ∉ m.data := fun m hm => h m (List.mem_cons_of_mem _ hm)
    rw [List.flatMap_cons, List.cons_append]
    show (if sep = sep then
        (⟨cur.reverse⟩ : String) ::
          strings.splitAux sep (n.data ++ ns.flatMap (fun n => sep :: n.data)) []
      else _) = _
    rw [if_pos rfl, splitAux_skip sep _ _ _ hn, ih _ hns]
    simp

/-- The alias list of a traversal whose aliases are non-empty and free of
commas splits into the aliases, in traversal order. -/
theorem typeLoop_list_split (es : GoMap String) (vs : Values)
    (h : ∀ a ∈ GoMap.keys es, a ≠ "" ∧ ',' ∉ a.data) :
    es ≠ [] → strings.Split (typeLoop es vs "").2 ',' = GoMap.keys es := by
  intro hne
  cases es with
  | nil => exact absurd rfl hne
  | cons e rest =>
    obtain ⟨a, u⟩ := e
    have ha := h a (by simp [GoMap.keys])
    have hrest : ∀ n ∈ GoMap.keys rest, ',' ∉ n.data :=
      fun n hn => (h n (by simp only [GoMap.keys, List.map_cons]; exact List.mem_cons_of_mem _ hn)).2
    have h0 : ¬ ("".length > 0) := by decide
    have hemp : "" ++ a = a := String.ext (by simp)
    simp only [typeLoop, h0, if_false, hemp]
    unfold strings.Split
    rw [typeLoop_list_eq_of_ne _ _ _ ha.1, splitAux_skip _ _ _ _ ha.2, splitAux_fields _ _ _ hrest]
    simp [GoMap.keys]

theorem requestBlock_get_ne (lk k : String) (m : Option (GoMap String)) (vs : Values)
    (h : lk ≠ k) :
    GoMap.get (requestBlock lk m vs) k =
      if declared k (entries m) = [] then GoMap.get vs k
      else some ((GoMap.get vs k).getD [] ++ declared k (entries m)) := by
  cases m with
  | none => simp [requestBlock, entries, declared]
  | some es =>
    simp only [requestBlock, entries, Option.getD_some]
    split
    · rw [Values.get_Add, if_neg h, typeLoop_get]
    · rw [typeLoop_get]

theorem requestBlock_get_list (lk : String) (m : Option (GoMap String)) (vs : Values)
    (h : strings.HasPrefix lk "openid.ax.type." = false) :
    GoMap.get (requestBlock lk m vs) lk =
      if ∃ e ∈ entries m, e.1 ≠ "" then
        some ((GoMap.get vs lk).getD [] ++ [(typeLoop (entries m) vs "").2])
      else GoMap.get vs lk := by
  cases m with
  | none => simp [requestBlock, entries]
  | some es =>
    simp only [requestBlock, entries, Option.getD_some]
    have hiff := typeLoop_list_pos_iff es vs ""
    simp only [ne_eq, not_true_eq_false, false_or] at hiff
    by_cases hex : ∃ e ∈ es, ¬ e.1 = ""
    · rw [if_pos (hiff.2 hex), if_pos hex, Values.get_Add, if_pos rfl, typeLoop_get,
        declared_of_other_key _ _ h, if_pos rfl]
    · rw [if_neg (fun hp => hex (hiff.1 hp)), if_neg hex, typeLoop_get,
        declared_of_other_key _ _ h, if_pos rfl]

/-- The bag before the two blocks of `RequestAttributes` run. -/
theorem RequestAttributes_eq (required optional : Option (GoMap String)) :
    RequestAttributes required optional =
      requestBlock "openid.ax.if_available" optional
        (requestBlock "openid.ax.required" required
          [("openid.ns.ax", [axNamespace]), ("openid.ax.mode", ["fetch_request"])]) := rfl

/-- A key other than the two list keys holds what the bag held at the start,
followed by the declarations of the required and then the optional map. -/
theorem RequestAttributes_get (required optional : Option (GoMap String)) (k : String)
    (h1 : "openid.ax.required" ≠ k) (h2 : "openid.ax.if_available" ≠ k) :
    GoMap.get (RequestAttributes required optional) k =
      if declared k (entries required) ++ declared k (entries optional) = [] then
        GoMap.get [("openid.ns.ax", [axNamespace]), ("openid.ax.mode", ["fetch_request"])] k
      else
        some ((GoMap.get [("openid.ns.ax", [axNamespace]), ("openid.ax.mode", ["fetch_request"])]
          k).getD [] ++ (declared k (entries required) ++ declared k (entries optional))) := by
  rw [RequestAttributes_eq, requestBlock_get_ne _ _ _ _ h2, requestBlock_get_ne _ _ _ _ h1]
  by_cases hr : declared k (entries required) = [] <;>
    by_cases ho : declared k (entries optional) = [] <;> simp [hr, ho]

theorem type_key_ne (lk a : String) (h : strings.HasPrefix lk "openid.ax.type." = false) :
    lk ≠ "openid.ax.type." ++ a := by
  intro e
  rw [e, strings.hasPrefix_append] at h
  exact Bool.noConfusion h

theorem ne_of_type_key (lk k : String) (h : strings.HasPrefix lk "openid.ax.type." = false)
    (hk : strings.HasPrefix k "openid.ax.type." = true) : lk ≠ k := by
  rintro rfl
  rw [hk] at h
  exact Bool.noConfusion h

theorem RequestAttributes_get_required (required optional : Option (GoMap String)) :
    GoMap.get (RequestAttributes required optional) "openid.ax.required" =
      if ∃ e ∈ entries required, e.1 ≠ "" then
        some [(typeLoop (entries required)
          [("openid.ns.ax", [axNamespace]), ("openid.ax.mode", ["fetch_request"])] "").2]
      else none := by
  rw [RequestAttributes_eq, requestBlock_get_ne _ _ _ _ (by decide),
    declared_of_other_key _ _ (by decide), if_pos rfl,
    requestBlock_get_list _ _ _ (by decide)]
  rfl

theorem RequestAttributes_get_if_available (required optional : Option (GoMap String)) :
    GoMap.get (RequestAttributes required optional) "openid.ax.if_available" =
      if ∃ e ∈ entries optional, e.1 ≠ "" then
        some [(typeLoop (entries optional)
          (requestBlock "openid.ax.required" required
            [("openid.ns.ax", [axNamespace]), ("openid.ax.mode", ["fetch_request"])]) "").2]
      else none := by
  rw [RequestAttributes_eq, requestBlock_get_list _ _ _ (by decide),
    requestBlock_get_ne _ _ _ _ (by decide),
    declared_of_other_key _ _ (by decide), if_pos rfl]
  rfl

/-! ## RequestAttributes: the claims -/

/-- C6. For all arguments (each one nil, empty or any map), the bag returned
by `RequestAttributes` maps `openid.ns.ax` to exactly the single value
`http://openid.net/srv/ax/1.0` and `openid.ax.mode` to exactly the single
value `fetch_request`. -/
theorem RequestAttributes_namespace_and_mode (required optional : Option (GoMap String)) :
    GoMap.get (RequestAttributes required optional) "openid.ns.ax" =
        some ["http://openid.net/srv/ax/1.0"] ∧
      GoMap.get (RequestAttributes required optional) "openid.ax.mode" = some ["fetch_request"] := by
  constructor
  · rw [RequestAttributes_get _ _ _ (by decide) (by decide),
      declared_of_other_key _ _ (by decide),
      declared_of_other_key _ _ (by decide)]
    rfl
  · rw [RequestAttributes_get _ _ _ (by decide) (by decide),
      declared_of_other_key _ _ (by decide),
      declared_of_other_key _ _ (by decide)]
    rfl

/-- C7. The bag returned by `RequestAttributes` has, for every pair
`(alias, typeURI)` of either map, the key `openid.ax.type.<alias>` with
`typeURI` among its values; every key of the bag with prefix
`openid.ax.type.` is `openid.ax.type.<alias>` for an alias of one of the maps;
and each such key holds the same values whatever order the entries of either
map are traversed in. -/
theorem RequestAttributes_type_declarations
    (required required' optional optional' : Option (GoMap String))
    (hr : (GoMap.keys (entries required)).Nodup) (ho : (GoMap.keys (entries optional)).Nodup)
    (hsr : SameMap required' required) (hso : SameMap optional' optional) :
    (∀ a u, (a, u) ∈ entries required ∨ (a, u) ∈ entries optional →
      ∃ vs, GoMap.get (RequestAttributes required optional) ("openid.ax.type." ++ a) = some vs ∧
        u ∈ vs) ∧
    (∀ k, strings.HasPrefix k "openid.ax.type." = true →
      (GoMap.get (RequestAttributes required optional) k).isSome = true →
      ∃ a, k = "openid.ax.type." ++ a ∧
        (a ∈ GoMap.keys (entries required) ∨ a ∈ GoMap.keys (entries optional))) ∧
    (∀ k, strings.HasPrefix k "openid.ax.type." = true →
      GoMap.get (RequestAttributes required' optional') k =
        GoMap.get (RequestAttributes required optional) k) := by
  refine ⟨?_, ?_, ?_⟩
  · intro a u hmem
    have hin : u ∈ declared ("openid.ax.type." ++ a) (entries required) ++
        declared ("openid.ax.type." ++ a) (entries optional) := by
      rcases hmem with h | h
      · exact List.mem_append_left _ (mem_declared_of_mem h)
      · exact List.mem_append_right _ (mem_declared_of_mem h)
    rw [RequestAttributes_get _ _ _ (type_key_ne _ a (by decide)) (type_key_ne _ a (by decide)),
      if_neg (List.ne_nil_of_mem hin)]
    exact ⟨_, rfl, List.mem_append_right _ hin⟩
  · intro k hk hsome
    rw [RequestAttributes_get _ _ _ (ne_of_type_key _ k (by decide) hk)
      (ne_of_type_key _ k (by decide) hk)] at hsome
    by_cases hnil : declared k (entries required) ++ declared k (entries optional) = []
    · rw [if_pos hnil] at hsome
      have hne1 : "openid.ns.ax" ≠ k := ne_of_type_key _ k (by decide) hk
      have hne2 : "openid.ax.mode" ≠ k := ne_of_type_key _ k (by decide) hk
      simp [GoMap.get, hne1, hne2] at hsome
    · obtain ⟨u, hu⟩ := List.exists_mem_of_ne_nil _ hnil
      rcases List.mem_append.1 hu with h | h
      · obtain ⟨a, hka, hmem⟩ := mem_of_mem_declared h
        exact ⟨a, hka, Or.inl (List.mem_map_of_mem Prod.fst hmem)⟩
      · obtain ⟨a, hka, hmem⟩ := mem_of_mem_declared h
        exact ⟨a, hka, Or.inr (List.mem_map_of_mem Prod.fst hmem)⟩
  · intro k hk
    rw [RequestAttributes_get _ _ _ (ne_of_type_key _ k (by decide) hk)
        (ne_of_type_key _ k (by decide) hk),
      RequestAttributes_get _ _ _ (ne_of_type_key _ k (by decide) hk)
        (ne_of_type_key _ k (by decide) hk),
      declared_perm k hr hsr.perm, declared_perm k ho hso.perm]

/-- C7, witness: the maps of `TestCreateAttributes`, the optional one
traversed in both orders. -/
theorem RequestAttributes_type_declarations_witness :
    GoMap.get (RequestAttributes (some [("one", "test:one")])
        (some [("three", "3"), ("two", "2")])) "openid.ax.type.two" =
      GoMap.get (RequestAttributes (some [("one", "test:one")])
        (some [("two", "2"), ("three", "3")])) "openid.ax.type.two" ∧
    GoMap.get (RequestAttributes (some [("one", "test:one")])
        (some [("two", "2"), ("three", "3")])) "openid.ax.type.one" = some ["test:one"] :=
  ⟨(RequestAttributes_type_declarations (some [("one", "test:one")]) (some [("one", "test:one")])
      (some [("two", "2"), ("three", "3")]) (some [("three", "3"), ("two", "2")])
      (by decide) (by decide) (List.Perm.refl _) (List.Perm.swap _ _ _)).2.2
      "openid.ax.type.two" (by decide),
    by decide⟩

/-- C8. When the aliases of the required (resp. optional) map are non-empty
and free of `,`, then for every traversal order of the entries the value of
`openid.ax.required` (resp. `openid.ax.if_available`), split on `,`, lists
exactly the aliases of that map, each exactly once. -/
theorem RequestAttributes_alias_lists
    (required required' optional optional' : Option (GoMap String))
    (hr : (GoMap.keys (entries required)).Nodup) (ho : (GoMap.keys (entries optional)).Nodup)
    (hsr : SameMap required' required) (hso : SameMap optional' optional)
    (har : ∀ a ∈ GoMap.keys (entries required), a ≠ "" ∧ ',' ∉ a.data)
    (hao : ∀ a ∈ GoMap.keys (entries optional), a ≠ "" ∧ ',' ∉ a.data) :
    (entries required ≠ [] →
      ∃ s, GoMap.get (RequestAttributes required' optional') "openid.ax.required" = some [s] ∧
        (strings.Split s ',').Perm (GoMap.keys (entries required)) ∧ (strings.Split s ',').Nodup) ∧
    (entries optional ≠ [] →
      ∃ s, GoMap.get (RequestAttributes required' optional') "openid.ax.if_available" = some [s] ∧
        (strings.Split s ',').Perm (GoMap.keys (entries optional)) ∧ (strings.Split s ',').Nodup) := by
  have key : ∀ (m m' : Option (GoMap String)) (vs : Values),
      (GoMap.keys (entries m)).Nodup → SameMap m' m →
      (∀ a ∈ GoMap.keys (entries m), a ≠ "" ∧ ',' ∉ a.data) → entries m ≠ [] →
      (∃ e ∈ entries m', e.1 ≠ "") ∧
        (strings.Split (typeLoop (entries m') vs "").2 ',').Perm (GoMap.keys (entries m)) ∧
        (strings.Split (typeLoop (entries m') vs "").2 ',').Nodup := by
    intro m m' vs hn hs ha hne
    have hp : (GoMap.keys (entries m')).Perm (GoMap.keys (entries m)) := hs.perm.map _
    have ha' : ∀ a ∈ GoMap.keys (entries m'), a ≠ "" ∧ ',' ∉ a.data :=
      fun a h => ha a (hp.mem_iff.1 h)
    have hne' : entries m' ≠ [] := fun h => hne (List.perm_nil.1 (h ▸ hs.perm.symm))
    rw [typeLoop_list_split _ vs ha' hne']
    refine ⟨?_, hp, hp.nodup_iff.2 hn⟩
    obtain ⟨e, he⟩ := List.exists_mem_of_ne_nil _ hne'
    exact ⟨e, he, (ha' e.1 (List.mem_map_of_mem Prod.fst he)).1⟩
  constructor
  · intro hne
    obtain ⟨hex, hperm, hnd⟩ := key required required' _ hr hsr har hne
    exact ⟨_, by rw [RequestAttributes_get_required, if_pos hex], hperm, hnd⟩
  · intro hne
    obtain ⟨hex, hperm, hnd⟩ := key optional optional' _ ho hso hao hne
    exact ⟨_, by rw [RequestAttributes_get_if_available, if_pos hex], hperm, hnd⟩

/-- C8, witness: required `one`, optional `two` and `three` give an
`openid.ax.if_available` made of exactly `two` and `three`, in the order the
optional map is traversed. -/
theorem RequestAttributes_alias_lists_witness :
    (∃ s, GoMap.get (RequestAttributes (some [("one", "test:one")])
          (some [("three", "3"), ("two", "2")])) "openid.ax.if_available" = some [s] ∧
        (strings.Split s ',').Perm ["two", "three"] ∧ (strings.Split s ',').Nodup) ∧
    GoMap.get (RequestAttributes (some [("one", "test:one")])
        (some [("three", "3"), ("two", "2")])) "openid.ax.if_available" = some ["three,two"] ∧
    GoMap.get (RequestAttributes (some [("one", "test:one")])
        (some [("two", "2"), ("three", "3")])) "openid.ax.if_available" = some ["two,three"] :=
  ⟨(RequestAttributes_alias_lists (some [("one", "test:one")]) (some [("one", "test:one")])
      (some [("two", "2"), ("three", "3")]) (some [("three", "3"), ("two", "2")])
      (by decide) (by decide) (List.Perm.refl _) (List.Perm.swap _ _ _)
      (by decide) (by decide)).2 (by decide),
    by decide, by decide⟩

/-- C9, counterexample: a required map whose only alias is the empty string
is not empty, yet the bag has no key `openid.ax.required`. -/
theorem RequestAttributes_required_key_absent :
    entries (some [("", "http://openid.net/schema/person/guid")]) ≠ [] ∧
      GoMap.get (RequestAttributes (some [("", "http://openid.net/schema/person/guid")]) none)
        "openid.ax.required" = none := by
  decide

/-- C9, as amended. The bag returned by `RequestAttributes` has the key
`openid.ax.required` if and only if the required map has an entry whose alias
is not the empty string (so never for a nil or empty map); the same holds for
`openid.ax.if_available` and the optional map. -/
theorem RequestAttributes_list_key_present (required optional : Option (GoMap String)) :
    ((GoMap.get (RequestAttributes required optional) "openid.ax.required").isSome = true ↔
      ∃ e ∈ entries required, e.1 ≠ "") ∧
    ((GoMap.get (RequestAttributes required optional) "openid.ax.if_available").isSome = true ↔
      ∃ e ∈ entries optional, e.1 ≠ "") := by
  constructor
  · rw [RequestAttributes_get_required]
    by_cases h : ∃ e ∈ entries required, e.1 ≠ "" <;> simp [h]
  · rw [RequestAttributes_get_if_available]
    by_cases h : ∃ e ∈ entries optional, e.1 ≠ "" <;> simp [h]

/-- C10, counterexample: with alias `a` required as `r` and optional as `o`,
the key `openid.ax.type.a` holds both URIs and its first value is `r`. -/
theorem RequestAttributes_collision_keeps_required :
    GoMap.get (RequestAttributes (some [("a", "r")]) (some [("a", "o")])) "openid.ax.type.a" =
        some ["r", "o"] ∧
      Values.Get (RequestAttributes (some [("a", "r")]) (some [("a", "o")])) "openid.ax.type.a" ≠
        "o" := by
  decide

/-- C10, as amended. For an alias `a` defined in the required map with URI
`r` and in the optional map with URI `o`, the key `openid.ax.type.<a>` of the
bag holds the two values `r`, `o` in this order, so its first value (what
`Get` returns) is the required URI `r`. -/
theorem RequestAttributes_collision (required optional : GoMap String) (a r o : String)
    (hr : (GoMap.keys required).Nodup) (ho : (GoMap.keys optional).Nodup)
    (hmr : (a, r) ∈ required) (hmo : (a, o) ∈ optional) :
    GoMap.get (RequestAttributes (some required) (some optional)) ("openid.ax.type." ++ a) =
        some [r, o] ∧
      Values.Get (RequestAttributes (some required) (some optional)) ("openid.ax.type." ++ a) =
        r := by
  have hget : GoMap.get (RequestAttributes (some required) (some optional))
      ("openid.ax.type." ++ a) = some [r, o] := by
    rw [RequestAttributes_get _ _ _ (type_key_ne _ a (by decide)) (type_key_ne _ a (by decide))]
    have h1 : declared ("openid.ax.type." ++ a) (entries (some required)) = [r] :=
      declared_of_mem hr hmr
    have h2 : declared ("openid.ax.type." ++ a) (entries (some optional)) = [o] :=
      declared_of_mem ho hmo
    have hne1 : "openid.ns.ax" ≠ "openid.ax.type." ++ a := type_key_ne _ a (by decide)
    have hne2 : "openid.ax.mode" ≠ "openid.ax.type." ++ a := type_key_ne _ a (by decide)
    rw [h1, h2]
    simp [GoMap.get, hne1, hne2]
  exact ⟨hget, by rw [Values.Get, hget]⟩

/-- C10, witness: alias `email` in both maps. -/
theorem RequestAttributes_collision_witness :
    GoMap.get (RequestAttributes (some [("uid", "u"), ("email", "r")]) (some [("email", "o")]))
        ("openid.ax.type." ++ "email") = some ["r", "o"] ∧
      Values.Get (RequestAttributes (some [("uid", "u"), ("email", "r")]) (some [("email", "o")]))
        ("openid.ax.type." ++ "email") = "r" :=
  RequestAttributes_collision [("uid", "u"), ("email", "r")] [("email", "o")] "email" "r" "o"
    (by decide) (by decide) (by decide) (by decide)

/-! ## Lemmas: net/url escaping -/

theorem strings.containsAux_singleton (c : Char) (l : List Char) :
    strings.containsAux [c] l = true ↔ c ∈ l := by
  induction l with
  | nil => simp [strings.containsAux]
  | cons x xs ih =>
    simp only [strings.containsAux, Bool.or_eq_true, ih, List.mem_cons]
    constructor
    · rintro (h | h)
      · left
        simp [List.isPrefixOf] at h
        exact h
      · exact Or.inr h
    · rintro (h | h)
      · left
        simp [List.isPrefixOf, h]
      · exact Or.inr h

theorem strings.contains_question_iff (s : String) :
    strings.Contains s "?" = true ↔ '?' ∈ s.data :=
  strings.containsAux_singleton '?' s.data

theorem url.upperhex_unreserved (i : Nat) (h : i < 16) :
    url.shouldEscape (url.upperhex i) = false ∧ url.ishex (url.upperhex i) = true ∧
      url.unhex (url.upperhex i) = i := by
  revert i
  decide

/-- Every character `QueryEscape` writes is unreserved, `+` or `%`. -/
theorem url.mem_escapeByte {b c : Char} (h : c ∈ url.escapeByte b) :
    url.shouldEscape c = false ∨ c = '+' ∨ c = '%' := by
  unfold url.escapeByte at h
  by_cases hs : url.shouldEscape b = true
  · rw [if_pos hs] at h
    by_cases hsp : b = ' '
    · rw [if_pos hsp] at h
      simp only [List.mem_singleton] at h
      exact Or.inr (Or.inl h)
    · rw [if_neg hsp] at h
      simp only [List.mem_cons, List.mem_singleton, List.mem_nil_iff, or_false] at h
      rcases h with h | h | h
      · exact Or.inr (Or.inr h)
      · exact Or.inl (h ▸ (url.upperhex_unreserved _ (Nat.mod_lt _ (by decide))).1)
      · exact Or.inl (h ▸ (url.upperhex_unreserved _ (Nat.mod_lt _ (by decide))).1)
  · rw [if_neg hs] at h
    simp only [List.mem_singleton] at h
    subst h
    exact Or.inl (by simpa using hs)

theorem url.mem_QueryEscape {s : String} {c : Char} (h : c ∈ (url.QueryEscape s).data) :
    url.shouldEscape c = false ∨ c = '+' ∨ c = '%' := by
  simp only [url.QueryEscape, List.mem_flatMap] at h
  obtain ⟨b, -, hb⟩ := h
  exact url.mem_escapeByte hb

/-- A reserved character other than `+` and `%` never occurs in an escaped
string. -/
theorem url.not_mem_QueryEscape (s : String) (c : Char) (h1 : url.shouldEscape c = true)
    (h2 : c ≠ '+') (h3 : c ≠ '%') : c ∉ (url.QueryEscape s).data := by
  intro h
  rcases url.mem_QueryEscape h with h | h | h
  · rw [h1] at h
    exact Bool.noConfusion h
  · exact h2 h
  · exact h3 h

theorem url.mem_encodeLoop (ps : List (String × String)) (buf : String) (c : Char)
    (h : c ∈ (url.encodeLoop ps buf).data) :
    c ∈ buf.data ∨ c = '&' ∨ c = '=' ∨ url.shouldEscape c = false ∨ c = '+' ∨ c = '%' := by
  induction ps generalizing buf with
  | nil => exact Or.inl h
  | cons p rest ih =>
    obtain ⟨k, x⟩ := p
    simp only [url.encodeLoop] at h
    rcases ih _ h with h | h
    · simp only [String.data_append, List.mem_append] at h
      rcases h with ((h | h) | h) | h
      · split at h
        · simp only [String.data_append, List.mem_append] at h
          rcases h with h | h
          · exact Or.inl h
          · right; left
            simpa using h
        · exact Or.inl h
      · exact Or.inr (Or.inr (Or.inr (url.mem_QueryEscape h)))
      · right; right; left
        simpa using h
      · exact Or.inr (Or.inr (Or.inr (url.mem_QueryEscape h)))
    · exact Or.inr h

/-- The output of `Values.Encode` has no `?`. -/
theorem url.question_not_mem_Encode (v : Values) : '?' ∉ (url.Encode v).data := by
  intro h
  rcases url.mem_encodeLoop _ _ _ h with h | h | h | h | h | h
  · simp at h
  all_goals exact absurd h (by decide)

/-! ## Lemmas: the core parameters of buildRedirectURL -/

theorem strings.length_pos_iff (s : String) : s.length > 0 ↔ s ≠ "" := by
  rw [gt_iff_lt, Nat.pos_iff_ne_zero, Ne, strings.length_eq_zero_iff]

/-- The bag `values` of `buildRedirectURL`, entry by entry. -/
theorem coreValues_eq (opLocalID claimedID returnTo realm : String) :
    coreValues opLocalID claimedID returnTo realm =
      [("openid.ns", ["http://specs.openid.net/auth/2.0"]), ("openid.mode", ["checkid_setup"]),
        ("openid.return_to", [returnTo])] ++
      (if claimedID = "" then [] else [("openid.claimed_id", [claimedID])]) ++
      [("openid.identity", [if claimedID ≠ "" ∧ opLocalID ≠ "" then opLocalID
        else "http://specs.openid.net/auth/2.0/identifier_select"])] ++
      (if realm = "" then [] else [("openid.realm", [realm])]) := by
  unfold coreValues
  simp only [strings.length_pos_iff]
  by_cases hc : claimedID = "" <;> by_cases hl : opLocalID = "" <;> by_cases hr : realm = "" <;>
    simp [hc, hl, hr, Values.Add, GoMap.get, GoMap.set]

/-- The pairs `Values.Encode` writes for the core parameters, in its order. -/
theorem encodedPairs_coreValues (opLocalID claimedID returnTo realm : String) :
    url.encodedPairs (coreValues opLocalID claimedID returnTo realm) =
      (if claimedID = "" then [] else [("openid.claimed_id", claimedID)]) ++
      [("openid.identity", if claimedID ≠ "" ∧ opLocalID ≠ "" then opLocalID
          else "http://specs.openid.net/auth/2.0/identifier_select"),
        ("openid.mode", "checkid_setup"), ("openid.ns", "http://specs.openid.net/auth/2.0")] ++
      (if realm = "" then [] else [("openid.realm", realm)]) ++
      [("openid.return_to", returnTo)] := by
  rw [coreValues_eq]
  have s1 : strings.sortStrings
      ["openid.ns", "openid.mode", "openid.return_to", "openid.identity"] =
      ["openid.identity", "openid.mode", "openid.ns", "openid.return_to"] := by decide
  have s2 : strings.sortStrings
      ["openid.ns", "openid.mode", "openid.return_to", "openid.identity", "openid.realm"] =
      ["openid.identity", "openid.mode", "openid.ns", "openid.realm", "openid.return_to"] := by
    decide
  have s3 : strings.sortStrings
      ["openid.ns", "openid.mode", "openid.return_to", "openid.claimed_id", "openid.identity"] =
      ["openid.claimed_id", "openid.identity", "openid.mode", "openid.ns", "openid.return_to"] := by
    decide
  have s4 : strings.sortStrings
      ["openid.ns", "openid.mode", "openid.return_to", "openid.claimed_id", "openid.identity",
        "openid.realm"] =
      ["openid.claimed_id", "openid.identity", "openid.mode", "openid.ns", "openid.realm",
        "openid.return_to"] := by
    decide
  by_cases hc : claimedID = "" <;> by_cases hr : realm = "" <;>
    simp [hc, hr, url.encodedPairs, GoMap.keys, s1, s2, s3, s4, GoMap.get]

theorem buildRedirectURL_eq (opEndpoint opLocalID claimedID returnTo realm : String)
    (extraValues : Option Values) :
    buildRedirectURL opEndpoint opLocalID claimedID returnTo realm extraValues =
      opEndpoint ++ (if '?' ∈ opEndpoint.data then "&" else "?") ++
        (url.Encode (coreValues opLocalID claimedID returnTo realm) ++
          (match extraValues with
            | some extra => "&" ++ url.Encode extra
            | none => "")) := by
  unfold buildRedirectURL
  by_cases h : '?' ∈ opEndpoint.data
  · simp only [(strings.contains_question_iff opEndpoint).2 h, if_true, h, String.append_assoc]
  · have h' : ¬ (strings.Contains opEndpoint "?" = true) :=
      fun e => h ((strings.contains_question_iff opEndpoint).1 e)
    simp only [h', if_false, h, String.append_assoc]
    rfl

/-! ## buildRedirectURL: the claims -/

/-- C11. For all arguments, the core parameters `buildRedirectURL` serialises
hold `openid.identity` exactly once (one key with one value, written as one
pair by `Encode`), and the value is `opLocalID` when `claimedID` and
`opLocalID` are both non-empty and the identifier-select URI in every other
case. -/
theorem buildRedirectURL_identity (opEndpoint opLocalID claimedID returnTo realm : String)
    (extraValues : Option Values) :
    (∃ sep rest, buildRedirectURL opEndpoint opLocalID claimedID returnTo realm extraValues =
      opEndpoint ++ sep ++ (url.Encode (coreValues opLocalID claimedID returnTo realm) ++ rest)) ∧
    GoMap.get (coreValues opLocalID claimedID returnTo realm) "openid.identity" =
      some [if claimedID ≠ "" ∧ opLocalID ≠ "" then opLocalID
        else "http://specs.openid.net/auth/2.0/identifier_select"] ∧
    (url.encodedPairs (coreValues opLocalID claimedID returnTo realm)).filter
        (fun p => p.1 = "openid.identity") =
      [("openid.identity", if claimedID ≠ "" ∧ opLocalID ≠ "" then opLocalID
        else "http://specs.openid.net/auth/2.0/identifier_select")] := by
  refine ⟨⟨_, _, buildRedirectURL_eq _ _ _ _ _ _⟩, ?_, ?_⟩
  · rw [coreValues_eq]
    by_cases hc : claimedID = "" <;> by_cases hr : realm = "" <;> simp [hc, hr, GoMap.get]
  · rw [encodedPairs_coreValues]
    by_cases hc : claimedID = "" <;> by_cases hr : realm = "" <;>
      simp [hc, hr, List.filter_cons]

/-- C13. For all arguments, the URL `buildRedirectURL` returns is `opEndpoint`,
then `&` when `opEndpoint` contains a `?` and `?` otherwise, then a remainder
(the encoded core parameters and the encoded extra parameters) without any
`?`; so the URL has as many `?` as an endpoint that has one, and exactly one
`?` for an endpoint that has none. -/
theorem buildRedirectURL_separator (opEndpoint opLocalID claimedID returnTo realm : String)
    (extraValues : Option Values) :
    ∃ remainder : String,
      buildRedirectURL opEndpoint opLocalID claimedID returnTo realm extraValues =
        opEndpoint ++ (if strings.Contains opEndpoint "?" = true then "&" else "?") ++ remainder ∧
      '?' ∉ remainder.data ∧
      (buildRedirectURL opEndpoint opLocalID claimedID returnTo realm extraValues).data.count '?' =
        if strings.Contains opEndpoint "?" = true then opEndpoint.data.count '?' else 1 := by
  have hrem : '?' ∉ (url.Encode (coreValues opLocalID claimedID returnTo realm) ++
      (match extraValues with
        | some extra => "&" ++ url.Encode extra
        | none => "")).data := by
    rw [String.data_append, List.mem_append]
    rintro (h | h)
    · exact url.question_not_mem_Encode _ h
    · cases extraValues with
      | none => simp at h
      | some extra =>
        simp only [String.data_append, List.mem_append] at h
        rcases h with h | h
        · exact absurd h (by decide)
        · exact url.question_not_mem_Encode _ h
  refine ⟨_, ?_, hrem, ?_⟩
  · rw [buildRedirectURL_eq]
    simp only [strings.contains_question_iff]
  · rw [buildRedirectURL_eq, String.data_append, String.data_append, List.count_append,
      List.count_append, List.count_eq_zero_of_not_mem hrem]
    simp only [strings.contains_question_iff]
    by_cases h : '?' ∈ opEndpoint.data
    · simp only [h, if_true]
      have h0 : List.count '?' "&".data = 0 := by decide
      rw [h0]
      omega
    · simp only [h, if_false, List.count_eq_zero_of_not_mem h]
      have h1 : List.count '?' "?".data = 1 := by decide
      rw [h1]

/-! ## Lemmas: `ParseQuery` after `Encode` -/

theorem url.shouldEscape_percent_plus (c : Char) (h : url.shouldEscape c = false) :
    c ≠ '%' ∧ c ≠ '+' ∧ c ≠ '=' ∧ c ≠ '&' ∧ c ≠ ';' := by
  refine ⟨?_, ?_, ?_, ?_, ?_⟩ <;>
  · rintro rfl
    exact absurd h (by decide)

theorem url.unescapeAux_cons_percent (a b : Char) (rest : List Char)
    (h : (url.ishex a && url.ishex b) = true) :
    url.unescapeAux ('%' :: a :: b :: rest) =
      match url.unescapeAux rest with
      | .ok out => .ok (Char.ofNat (url.unhex a * 16 + url.unhex b) :: out)
      | .error err => .error err := by
  simp only [url.unescapeAux, if_true, h]

theorem url.unescapeAux_cons_other (c : Char) (rest : List Char) (h : c ≠ '%') :
    url.unescapeAux (c :: rest) =
      match url.unescapeAux rest with
      | .ok out => .ok ((if c = '+' then ' ' else c) :: out)
      | .error err => .error err := by
  cases rest with
  | nil => simp only [url.unescapeAux, h, if_false]
  | cons a rest' =>
    cases rest' with
    | nil => simp only [url.unescapeAux, h, if_false]
    | cons b rest'' => simp only [url.unescapeAux, h, if_false]

/-- Unescaping undoes escaping, byte by byte. -/
theorem url.unescapeAux_escape (l : List Char) (h : ∀ c ∈ l, c.toNat < 256) :
    url.unescapeAux (l.flatMap url.escapeByte) = .ok l := by
  induction l with
  | nil => rfl
  | cons c rest ih =>
    have hrest := ih (fun d hd => h d (List.mem_cons_of_mem _ hd))
    have hc : c.toNat < 256 := h c (List.mem_cons_self _ _)
    rw [List.flatMap_cons]
    by_cases hs : url.shouldEscape c = true
    · by_cases hsp : c = ' '
      · have he : url.escapeByte c = ['+'] := by
          unfold url.escapeByte
          rw [if_pos hs, if_pos hsp]
        rw [he, List.singleton_append, url.unescapeAux_cons_other _ _ (by decide), hrest, hsp]
        rfl
      · have he : url.escapeByte c =
            ['%', url.upperhex (c.toNat / 16 % 16), url.upperhex (c.toNat % 16)] := by
          unfold url.escapeByte
          rw [if_pos hs, if_neg hsp]
        have h1 := url.upperhex_unreserved (c.toNat / 16 % 16) (Nat.mod_lt _ (by decide))
        have h2 := url.upperhex_unreserved (c.toNat % 16) (Nat.mod_lt _ (by decide))
        rw [he]
        show url.unescapeAux ('%' :: url.upperhex (c.toNat / 16 % 16) ::
          url.upperhex (c.toNat % 16) :: rest.flatMap url.escapeByte) = _
        rw [url.unescapeAux_cons_percent _ _ _ (by rw [h1.2.1, h2.2.1]; rfl), hrest,
          h1.2.2, h2.2.2]
        have hn : c.toNat / 16 % 16 * 16 + c.toNat % 16 = c.toNat := by omega
        simp only [hn, Char.ofNat_toNat]
    · have hs' : url.shouldEscape c = false := by simpa using hs
      have he : url.escapeByte c = [c] := by
        unfold url.escapeByte
        rw [if_neg hs]
      obtain ⟨hp, hplus, -⟩ := url.shouldEscape_percent_plus c hs'
      rw [he, List.singleton_append, url.unescapeAux_cons_other _ _ hp, hrest]
      simp only [hplus, if_false]

theorem url.QueryUnescape_QueryEscape (s : String) (h : IsBytes s) :
    url.QueryUnescape (url.QueryEscape s) = .ok s := by
  unfold url.QueryUnescape url.QueryEscape
  simp only [url.unescapeAux_escape s.data h]

theorem strings.takeWhile_sep (sep : Char) (a b : List Char) (h : sep ∉ a) :
    (a ++ sep :: b).takeWhile (fun c => c != sep) = a ∧
      (a ++ sep :: b).dropWhile (fun c => c != sep) = sep :: b := by
  induction a with
  | nil => simp
  | cons x xs ih =>
    have hx : x ≠ sep := fun e => h (by simp [e])
    have hxs : sep ∉ xs := fun e => h (List.mem_cons_of_mem _ e)
    obtain ⟨h1, h2⟩ := ih hxs
    simp [List.takeWhile_cons, List.dropWhile_cons, hx, h1, h2]

theorem strings.Cut_append (a b : String) (sep : Char) (h : sep ∉ a.data) :
    strings.Cut (a ++ ⟨[sep]⟩ ++ b) sep = (a, b) := by
  unfold strings.Cut
  have hd : (a ++ ⟨[sep]⟩ ++ b).data = a.data ++ sep :: b.data := by simp
  obtain ⟨h1, h2⟩ := strings.takeWhile_sep sep a.data b.data h
  rw [hd, h1, h2]
  rfl

/-- The piece `key=value` that `Encode` writes for one pair. -/
theorem url.parsePiece_encoded (k x : String) (m : Values) (err : Option String)
    (hk : IsBytes k) (hx : IsBytes x) :
    url.parsePiece (url.QueryEscape k ++ "=" ++ url.QueryEscape x) (m, err) =
      (m.Add k x, err) := by
  have hsemi : ¬ (strings.Contains (url.QueryEscape k ++ "=" ++ url.QueryEscape x) ";" = true) := by
    intro h
    have hmem := (strings.containsAux_singleton ';' _).1 h
    simp only [String.data_append, List.mem_append] at hmem
    rcases hmem with (hmem | hmem) | hmem
    · exact url.not_mem_QueryEscape k ';' (by decide) (by decide) (by decide) hmem
    · exact absurd hmem (by decide)
    · exact url.not_mem_QueryEscape x ';' (by decide) (by decide) (by decide) hmem
  have hne : url.QueryEscape k ++ "=" ++ url.QueryEscape x ≠ "" := by
    intro h
    have := congrArg String.data h
    simp at this
  have hcut : strings.Cut (url.QueryEscape k ++ "=" ++ url.QueryEscape x) '=' =
      (url.QueryEscape k, url.QueryEscape x) :=
    strings.Cut_append _ _ '=' (url.not_mem_QueryEscape k '=' (by decide) (by decide) (by decide))
  unfold url.parsePiece
  rw [if_neg hsemi, if_neg hne]
  simp only [hcut, url.QueryUnescape_QueryEscape k hk, url.QueryUnescape_QueryEscape x hx]

theorem url.amp_not_mem_encodedPiece (p : String × String) : '&' ∉ (url.encodedPiece p).data := by
  intro h
  simp only [url.encodedPiece, String.data_append, List.mem_append] at h
  rcases h with (h | h) | h
  · exact url.not_mem_QueryEscape _ '&' (by decide) (by decide) (by decide) h
  · exact absurd h (by decide)
  · exact url.not_mem_QueryEscape _ '&' (by decide) (by decide) (by decide) h

theorem url.encodeLoop_data (ps : List (String × String)) (buf : String) (h : buf ≠ "") :
    (url.encodeLoop ps buf).data =
      buf.data ++ ps.flatMap (fun p => '&' :: (url.encodedPiece p).data) := by
  induction ps generalizing buf with
  | nil => simp [url.encodeLoop]
  | cons p rest ih =>
    obtain ⟨k, x⟩ := p
    have hpos : buf.length > 0 := (strings.length_pos_iff buf).2 h
    have hne : buf ++ "&" ++ url.QueryEscape k ++ "=" ++ url.QueryEscape x ≠ "" := by
      intro e
      have := congrArg String.data e
      simp at this
    simp only [url.encodeLoop, hpos, if_true]
    rw [ih _ hne]
    simp [url.encodedPiece]

theorem url.encodeLoop_cons_empty (p : String × String) (rest : List (String × String)) :
    url.encodeLoop (p :: rest) "" = url.encodeLoop rest (url.encodedPiece p) := by
  obtain ⟨k, x⟩ := p
  have h0 : ¬ ("".length > 0) := by decide
  have hemp : "" ++ url.QueryEscape k = url.QueryEscape k := String.ext (by simp)
  simp only [url.encodeLoop, h0, if_false, hemp, url.encodedPiece]

/-- Splitting what `Encode` wrote at `&` gives back the pieces. -/
theorem url.Split_encodeLoop (p : String × String) (rest : List (String × String)) :
    strings.Split (url.encodeLoop (p :: rest) "") '&' = (p :: rest).map url.encodedPiece := by
  have hne : url.encodedPiece p ≠ "" := by
    intro e
    have := congrArg String.data e
    simp [url.encodedPiece] at this
  have hflat : rest.flatMap (fun q => '&' :: (url.encodedPiece q).data) =
      (rest.map url.encodedPiece).flatMap (fun n => '&' :: n.data) := by
    induction rest with
    | nil => rfl
    | cons q qs ih => simp [List.flatMap_cons, ih]
  unfold strings.Split
  rw [url.encodeLoop_cons_empty, url.encodeLoop_data _ _ hne, hflat,
    splitAux_skip _ _ _ _ (url.amp_not_mem_encodedPiece p),
    splitAux_fields _ _ _ (by
      intro n hn
      obtain ⟨q, -, rfl⟩ := List.mem_map.1 hn
      exact url.amp_not_mem_encodedPiece q)]
  simp

theorem url.foldl_parsePiece (ps : List (String × String)) (m : Values) (err : Option String)
    (h : ∀ p ∈ ps, IsBytes p.1 ∧ IsBytes p.2) :
    (ps.map url.encodedPiece).foldl (fun st key => url.parsePiece key st) (m, err) =
      (ps.foldl (fun acc p => acc.Add p.1 p.2) m, err) := by
  induction ps generalizing m with
  | nil => rfl
  | cons p rest ih =>
    have hp := h p (List.mem_cons_self _ _)
    simp only [List.map_cons, List.foldl_cons]
    have := url.parsePiece_encoded p.1 p.2 m err hp.1 hp.2
    rw [url.encodedPiece, this]
    exact ih _ (fun q hq => h q (List.mem_cons_of_mem _ hq))

/-- `ParseQuery` reads back the pairs `Encode` wrote, in order. -/
theorem url.ParseQuery_encodeLoop (ps : List (String × String))
    (h : ∀ p ∈ ps, IsBytes p.1 ∧ IsBytes p.2) :
    url.ParseQuery (url.encodeLoop ps "") =
      .ok (ps.foldl (fun acc p => acc.Add p.1 p.2) []) := by
  cases ps with
  | nil => decide
  | cons p rest =>
    unfold url.ParseQuery
    rw [url.Split_encodeLoop, url.foldl_parsePiece _ _ _ h]

/-- What `ParseQuery` reads from the encoded core parameters. -/
theorem ParseQuery_Encode_coreValues (opLocalID claimedID returnTo realm : String)
    (hl : IsBytes opLocalID) (hc : IsBytes claimedID) (ht : IsBytes returnTo)
    (hr : IsBytes realm) :
    url.ParseQuery (url.Encode (coreValues opLocalID claimedID returnTo realm)) =
      .ok ((if claimedID = "" then [] else [("openid.claimed_id", [claimedID])]) ++
        [("openid.identity", [if claimedID ≠ "" ∧ opLocalID ≠ "" then opLocalID
            else "http://specs.openid.net/auth/2.0/identifier_select"]),
          ("openid.mode", ["checkid_setup"]),
          ("openid.ns", ["http://specs.openid.net/auth/2.0"])] ++
        (if realm = "" then [] else [("openid.realm", [realm])]) ++
        [("openid.return_to", [returnTo])]) := by
  have hid : IsBytes (if claimedID ≠ "" ∧ opLocalID ≠ "" then opLocalID
      else "http://specs.openid.net/auth/2.0/identifier_select") := by
    split
    · exact hl
    · decide
  have hb : ∀ p ∈ url.encodedPairs (coreValues opLocalID claimedID returnTo realm),
      IsBytes p.1 ∧ IsBytes p.2 := by
    rw [encodedPairs_coreValues]
    intro p hp
    simp only [List.mem_append, List.mem_cons, List.mem_singleton, List.mem_nil_iff,
      or_false] at hp
    rcases hp with ((hp | hp) | hp) | hp
    · split at hp
      · simp at hp
      · simp only [List.mem_singleton] at hp
        subst hp
        exact ⟨(by decide : IsBytes "openid.claimed_id"), hc⟩
    · rcases hp with hp | hp | hp
      · subst hp
        exact ⟨(by decide : IsBytes "openid.identity"), hid⟩
      · subst hp
        exact ⟨by decide, by decide⟩
      · subst hp
        exact ⟨by decide, by decide⟩
    · split at hp
      · simp at hp
      · simp only [List.mem_singleton] at hp
        subst hp
        exact ⟨(by decide : IsBytes "openid.realm"), hr⟩
    · subst hp
      exact ⟨(by decide : IsBytes "openid.return_to"), ht⟩
  unfold url.Encode
  rw [url.ParseQuery_encodeLoop _ hb, encodedPairs_coreValues]
  by_cases h1 : claimedID = "" <;> by_cases h2 : realm = "" <;>
    simp [h1, h2, Values.Add, GoMap.get, GoMap.set]

theorem buildRedirectURL_none (opEndpoint opLocalID claimedID returnTo realm : String) :
    buildRedirectURL opEndpoint opLocalID claimedID returnTo realm none =
      opEndpoint ++ (if strings.Contains opEndpoint "?" = true then "&" else "?") ++
        url.Encode (coreValues opLocalID claimedID returnTo realm) := by
  rw [buildRedirectURL_eq]
  simp only [strings.contains_question_iff]
  congr 1
  exact String.ext (by simp)

theorem strings.contains_hash_iff (s : String) :
    strings.Contains s "#" = true ↔ '#' ∈ s.data :=
  strings.containsAux_singleton '#' s.data

/-- The output of `Values.Encode` has no `#`. -/
theorem url.hash_not_mem_Encode (v : Values) : '#' ∉ (url.Encode v).data := by
  intro h
  rcases url.mem_encodeLoop _ _ _ h with h | h | h | h | h | h
  · simp at h
  all_goals exact absurd h (by decide)

theorem strings.Cut_of_not_mem (s : String) (sep : Char) (h : sep ∉ s.data) :
    strings.Cut s sep = (s, "") := by
  unfold strings.Cut
  have h1 : s.data.takeWhile (fun c => c != sep) = s.data := by
    rw [List.takeWhile_eq_self_iff]
    intro c hc
    simp only [bne_iff_ne, ne_eq]
    rintro rfl
    exact h hc
  have h2 : s.data.dropWhile (fun c => c != sep) = [] := by
    rw [List.dropWhile_eq_nil_iff]
    intro c hc
    simp only [bne_iff_ne, ne_eq]
    rintro rfl
    exact h hc
  rw [h1, h2]
  rfl

/-- Text appended behind the first separator only extends the second part of
`Cut`. -/
theorem strings.Cut_append_of_mem (a s : String) (sep : Char) (h : sep ∈ a.data) :
    strings.Cut (a ++ s) sep = ((strings.Cut a sep).1, (strings.Cut a sep).2 ++ s) := by
  obtain ⟨r, hr, hn⟩ := take_indexOf_append sep a.data h
  have ha : a = ⟨a.data.take (a.data.indexOf sep)⟩ ++ ⟨[sep]⟩ ++ ⟨r⟩ :=
    String.ext (by simpa using hr)
  have hn' : sep ∉ (⟨a.data.take (a.data.indexOf sep)⟩ : String).data := hn
  have has : a ++ s = ⟨a.data.take (a.data.indexOf sep)⟩ ++ ⟨[sep]⟩ ++ (⟨r⟩ ++ s) := by
    conv_lhs => rw [ha]
    rw [String.append_assoc]
  rw [has, strings.Cut_append _ _ _ hn']
  conv_rhs => rw [ha]
  rw [strings.Cut_append _ _ _ hn']

/-- The query part of the URL `buildRedirectURL` returns without extra
values: behind a fragment of the endpoint nothing is appended to the query;
otherwise the encoded core parameters follow the endpoint's own query. -/
theorem queryPart_buildRedirectURL (opEndpoint opLocalID claimedID returnTo realm : String) :
    queryPart (buildRedirectURL opEndpoint opLocalID claimedID returnTo realm none) =
      if '#' ∈ opEndpoint.data then queryPart opEndpoint
      else if '?' ∈ opEndpoint.data then
        queryPart opEndpoint ++ ("&" ++ url.Encode (coreValues opLocalID claimedID returnTo realm))
      else url.Encode (coreValues opLocalID claimedID returnTo realm) := by
  rw [buildRedirectURL_none]
  simp only [strings.contains_question_iff]
  unfold queryPart
  by_cases hh : '#' ∈ opEndpoint.data
  · rw [if_pos hh, String.append_assoc, strings.Cut_append_of_mem _ _ _ hh]
  · rw [if_neg hh, strings.Cut_of_not_mem opEndpoint '#' hh]
    by_cases hq : '?' ∈ opEndpoint.data
    · have hnot : '#' ∉ (opEndpoint ++ "&" ++
          url.Encode (coreValues opLocalID claimedID returnTo realm)).data := by
        simp only [String.data_append, List.mem_append]
        rintro ((h | h) | h)
        · exact hh h
        · exact absurd h (by decide)
        · exact url.hash_not_mem_Encode _ h
      simp only [hq, if_true]
      rw [strings.Cut_of_not_mem _ '#' hnot, String.append_assoc,
        strings.Cut_append_of_mem _ _ _ hq]
    · have hnot : '#' ∉ (opEndpoint ++ "?" ++
          url.Encode (coreValues opLocalID claimedID returnTo realm)).data := by
        simp only [String.data_append, List.mem_append]
        rintro ((h | h) | h)
        · exact hh h
        · exact absurd h (by decide)
        · exact url.hash_not_mem_Encode _ h
      simp only [hq, if_false]
      rw [strings.Cut_of_not_mem _ '#' hnot]
      have hq' : (⟨['?']⟩ : String) = "?" := rfl
      have := strings.Cut_append opEndpoint
        (url.Encode (coreValues opLocalID claimedID returnTo realm)) '?' hq
      rw [hq'] at this
      rw [this]

theorem strings.splitAux_append (sep : Char) (a b cur : List Char) :
    strings.splitAux sep (a ++ sep :: b) cur =
      strings.splitAux sep a cur ++ strings.splitAux sep b [] := by
  induction a generalizing cur with
  | nil =>
    show (if sep = sep then (⟨cur.reverse⟩ : String) :: strings.splitAux sep b [] else _) = _
    rw [if_pos rfl]
    rfl
  | cons c cs ih =>
    rw [List.cons_append]
    show (if c = sep then (⟨cur.reverse⟩ : String) :: strings.splitAux sep (cs ++ sep :: b) []
      else strings.splitAux sep (cs ++ sep :: b) (c :: cur)) =
      (if c = sep then (⟨cur.reverse⟩ : String) :: strings.splitAux sep cs []
        else strings.splitAux sep cs (c :: cur)) ++ strings.splitAux sep b []
    by_cases hc : c = sep
    · rw [if_pos hc, if_pos hc, ih, List.cons_append]
    · rw [if_neg hc, if_neg hc, ih]

theorem strings.Split_append (a b : String) :
    strings.Split (a ++ ("&" ++ b)) '&' = strings.Split a '&' ++ strings.Split b '&' := by
  unfold strings.Split
  have hd : (a ++ ("&" ++ b)).data = a.data ++ '&' :: b.data := by simp
  rw [hd, strings.splitAux_append]

theorem url.Query_of_ParseQuery (query : String) (m : Values)
    (h : url.ParseQuery query = .ok m) : url.Query query = m := by
  unfold url.ParseQuery at h
  unfold url.Query
  split at h
  · rename_i m' heq
    rw [heq]
    simp only [Except.ok.injEq] at h
    exact h
  · simp at h

/-- The map of a query that ends with pairs `Encode` wrote: the pairs are
added to the map of the text before them. -/
theorem url.Query_append_encodeLoop (q : String) (p : String × String)
    (rest : List (String × String)) (h : ∀ x ∈ p :: rest, IsBytes x.1 ∧ IsBytes x.2) :
    url.Query (q ++ ("&" ++ url.encodeLoop (p :: rest) "")) =
      (p :: rest).foldl (fun acc x => acc.Add x.1 x.2) (url.Query q) := by
  unfold url.Query
  rw [strings.Split_append, List.foldl_append, url.Split_encodeLoop]
  generalize (strings.Split q '&').foldl (fun st key => url.parsePiece key st) ([], none) = st
  obtain ⟨m, err⟩ := st
  rw [url.foldl_parsePiece _ _ _ h]

theorem Values.get_foldl_Add (ps : List (String × String)) (m : Values) (k : String) :
    GoMap.get (ps.foldl (fun (acc : Values) x => acc.Add x.1 x.2) m) k =
      if (ps.filter (fun x => x.1 = k)).map Prod.snd = [] then GoMap.get m k
      else some ((GoMap.get m k).getD [] ++ (ps.filter (fun x => x.1 = k)).map Prod.snd) := by
  induction ps generalizing m with
  | nil => simp
  | cons p rest ih =>
    obtain ⟨a, x⟩ := p
    rw [List.foldl_cons, ih, Values.get_Add]
    by_cases ha : a = k
    · subst ha
      by_cases hr : (rest.filter (fun x => x.1 = a)).map Prod.snd = [] <;>
        simp [List.filter_cons, hr]
    · have hf : ((a, x) :: rest).filter (fun x => decide (x.1 = k)) =
          rest.filter (fun x => decide (x.1 = k)) := by
        rw [List.filter_cons]
        simp [ha]
      rw [hf]
      simp only [ha, if_false]

/-- The key `openid.claimed_id` in a map to which the core parameters were
added. -/
theorem get_claimed_id_foldl (opLocalID claimedID returnTo realm : String) (m : Values)
    (hm : GoMap.get m "openid.claimed_id" = none) :
    GoMap.get ((url.encodedPairs (coreValues opLocalID claimedID returnTo realm)).foldl
        (fun (acc : Values) x => acc.Add x.1 x.2) m) "openid.claimed_id" =
      if claimedID = "" then none else some [claimedID] := by
  rw [Values.get_foldl_Add, hm, encodedPairs_coreValues]
  by_cases h1 : claimedID = "" <;> by_cases h2 : realm = "" <;>
    simp [h1, h2, List.filter_cons]

theorem isBytes_encodedPairs_coreValues (opLocalID claimedID returnTo realm : String)
    (hl : IsBytes opLocalID) (hc : IsBytes claimedID) (ht : IsBytes returnTo)
    (hr : IsBytes realm) :
    ∀ p ∈ url.encodedPairs (coreValues opLocalID claimedID returnTo realm),
      IsBytes p.1 ∧ IsBytes p.2 := by
  have hid : IsBytes (if claimedID ≠ "" ∧ opLocalID ≠ "" then opLocalID
      else "http://specs.openid.net/auth/2.0/identifier_select") := by
    split
    · exact hl
    · decide
  rw [encodedPairs_coreValues]
  intro p hp
  simp only [List.mem_append, List.mem_cons, List.mem_singleton, List.mem_nil_iff,
    or_false] at hp
  rcases hp with ((hp | hp) | hp) | hp
  · split at hp
    · simp at hp
    · simp only [List.mem_singleton] at hp
      subst hp
      exact ⟨(by decide : IsBytes "openid.claimed_id"), hc⟩
  · rcases hp with hp | hp | hp
    · subst hp
      exact ⟨(by decide : IsBytes "openid.identity"), hid⟩
    · subst hp
      exact ⟨by decide, by decide⟩
    · subst hp
      exact ⟨by decide, by decide⟩
  · split at hp
    · simp at hp
    · simp only [List.mem_singleton] at hp
      subst hp
      exact ⟨(by decide : IsBytes "openid.realm"), hr⟩
  · subst hp
    exact ⟨(by decide : IsBytes "openid.return_to"), ht⟩

theorem encodedPairs_coreValues_cons (opLocalID claimedID returnTo realm : String) :
    ∃ p rest, url.encodedPairs (coreValues opLocalID claimedID returnTo realm) = p :: rest := by
  rw [encodedPairs_coreValues]
  by_cases h1 : claimedID = "" <;> simp [h1]

set_option maxRecDepth 20000 in
/-- C12, counterexample: with an empty `claimedID` and an endpoint whose own
query names `openid.claimed_id`, the query of the returned URL has that key;
and with a non-empty `claimedID` and an endpoint that ends in a fragment, the
parameters land in the fragment and the query of the URL has no key at all. -/
theorem buildRedirectURL_claimed_id_of_endpoint :
    url.ParseQuery (queryPart (buildRedirectURL "http://op.example/auth?openid.claimed_id=x"
        "" "" "http://rp.example/cb" "" none)) =
      .ok [("openid.claimed_id", ["x"]),
        ("openid.identity", ["http://specs.openid.net/auth/2.0/identifier_select"]),
        ("openid.mode", ["checkid_setup"]), ("openid.ns", ["http://specs.openid.net/auth/2.0"]),
        ("openid.return_to", ["http://rp.example/cb"])] ∧
    url.ParseQuery (queryPart (buildRedirectURL "http://op.example/auth#frag"
        "" "http://me.example/" "http://rp.example/cb" "" none)) = .ok [] := by
  decide

/-- C12, as amended. For every input with `extraValues` nil whose
`opEndpoint` does not name `openid.claimed_id` in its own query and, when
`claimedID` is non-empty, has no `#`, the query of the URL `buildRedirectURL`
returns holds the key `openid.claimed_id` if and only if `claimedID` is
non-empty, and then its single value is `claimedID`. -/
theorem buildRedirectURL_claimed_id (opEndpoint opLocalID claimedID returnTo realm : String)
    (hl : IsBytes opLocalID) (hc : IsBytes claimedID) (ht : IsBytes returnTo)
    (hr : IsBytes realm)
    (hown : GoMap.get (url.Query (queryPart opEndpoint)) "openid.claimed_id" = none)
    (hfrag : claimedID ≠ "" → strings.Contains opEndpoint "#" = false) :
    GoMap.get (url.Query (queryPart
        (buildRedirectURL opEndpoint opLocalID claimedID returnTo realm none)))
        "openid.claimed_id" =
      if claimedID = "" then none else some [claimedID] := by
  have hb := isBytes_encodedPairs_coreValues opLocalID claimedID returnTo realm hl hc ht hr
  obtain ⟨p, rest, hps⟩ := encodedPairs_coreValues_cons opLocalID claimedID returnTo realm
  rw [queryPart_buildRedirectURL]
  by_cases hh : '#' ∈ opEndpoint.data
  · rw [if_pos hh, hown]
    by_cases hcl : claimedID = ""
    · rw [if_pos hcl]
    · have := hfrag hcl
      rw [(strings.contains_hash_iff opEndpoint).2 hh] at this
      exact Bool.noConfusion this
  · rw [if_neg hh]
    by_cases hq : '?' ∈ opEndpoint.data
    · rw [if_pos hq]
      unfold url.Encode
      rw [hps] at hb ⊢
      rw [url.Query_append_encodeLoop _ _ _ hb, ← hps]
      exact get_claimed_id_foldl _ _ _ _ _ hown
    · rw [if_neg hq]
      unfold url.Encode
      rw [url.Query_of_ParseQuery _ _ (url.ParseQuery_encodeLoop _ hb)]
      exact get_claimed_id_foldl _ _ _ _ [] rfl

set_option maxRecDepth 20000 in
/-- C12, witness: `claimedID`, `opLocalID` and `realm` empty and an endpoint
with the query `foo=bar` give a URL whose query has no `openid.claimed_id` and
whose `openid.identity` is the identifier-select URI. -/
theorem buildRedirectURL_claimed_id_witness :
    GoMap.get (url.Query (queryPart
        (buildRedirectURL "http://op.example/auth?foo=bar" "" "" "http://rp.example/cb?x=1" ""
          none))) "openid.claimed_id" = none ∧
      url.ParseQuery (queryPart
          (buildRedirectURL "http://op.example/auth?foo=bar" "" "" "http://rp.example/cb?x=1" ""
            none)) =
        .ok [("foo", ["bar"]),
          ("openid.identity", ["http://specs.openid.net/auth/2.0/identifier_select"]),
          ("openid.mode", ["checkid_setup"]), ("openid.ns", ["http://specs.openid.net/auth/2.0"]),
          ("openid.return_to", ["http://rp.example/cb?x=1"])] :=
  ⟨buildRedirectURL_claimed_id "http://op.example/auth?foo=bar" "" "" "http://rp.example/cb?x=1" ""
      (by decide) (by decide) (by decide) (by decide) (by decide) (fun h => absurd rfl h),
    by decide⟩

set_option maxRecDepth 20000 in
/-- C14, counterexample: the endpoint `http://op.example/auth#frag` has no
`?`, the returned URL is `http://op.example/auth#frag?openid...`, and its query
part is empty: decoding it gives no key. -/
theorem buildRedirectURL_query_in_fragment :
    strings.Contains "http://op.example/auth#frag" "?" = false ∧
      url.ParseQuery (queryPart (buildRedirectURL "http://op.example/auth#frag" "local"
        "http://me.example/" "http://rp.example/cb" "http://rp.example/" none)) = .ok [] := by
  decide

/-- C14, as amended. For an `opEndpoint` without `?` and without `#`,
`extraValues` nil and arbitrary byte strings `opLocalID`, `claimedID`,
`returnTo`, `realm`, decoding the query part of the URL `buildRedirectURL`
returns gives exactly these keys, each with one value: `openid.claimed_id` =
`claimedID` only when `claimedID` is non-empty, `openid.identity`,
`openid.mode` = `checkid_setup`, `openid.ns` =
`http://specs.openid.net/auth/2.0`, `openid.realm` = `realm` only when `realm`
is non-empty, and `openid.return_to` = `returnTo`. -/
theorem buildRedirectURL_query_roundtrip
    (opEndpoint opLocalID claimedID returnTo realm : String)
    (he : strings.Contains opEndpoint "?" = false)
    (hf : strings.Contains opEndpoint "#" = false)
    (hl : IsBytes opLocalID) (hc : IsBytes claimedID) (ht : IsBytes returnTo)
    (hr : IsBytes realm) :
    url.ParseQuery
        (queryPart (buildRedirectURL opEndpoint opLocalID claimedID returnTo realm none)) =
      .ok ((if claimedID = "" then [] else [("openid.claimed_id", [claimedID])]) ++
        [("openid.identity", [if claimedID ≠ "" ∧ opLocalID ≠ "" then opLocalID
            else "http://specs.openid.net/auth/2.0/identifier_select"]),
          ("openid.mode", ["checkid_setup"]),
          ("openid.ns", ["http://specs.openid.net/auth/2.0"])] ++
        (if realm = "" then [] else [("openid.realm", [realm])]) ++
        [("openid.return_to", [returnTo])]) := by
  have hq : '?' ∉ opEndpoint.data := by
    intro h
    rw [(strings.contains_question_iff opEndpoint).2 h] at he
    exact Bool.noConfusion he
  have hh : '#' ∉ opEndpoint.data := by
    intro h
    rw [(strings.contains_hash_iff opEndpoint).2 h] at hf
    exact Bool.noConfusion hf
  rw [queryPart_buildRedirectURL, if_neg hh, if_neg hq]
  exact ParseQuery_Encode_coreValues _ _ _ _ hl hc ht hr

/-- C14, witness: values with `&`, `=`, `?`, `#`, `%`, `+`, a space and a byte
above 127 come back unchanged. -/
theorem buildRedirectURL_query_roundtrip_witness :
    url.ParseQuery (queryPart (buildRedirectURL "http://op.example/auth" "local id+1"
        "http://me.example/?a=b&c#d%41" "http://rp.example/cb?x=1&y=2" "r\xe9alm" none)) =
      .ok [("openid.claimed_id", ["http://me.example/?a=b&c#d%41"]),
        ("openid.identity", ["local id+1"]),
        ("openid.mode", ["checkid_setup"]), ("openid.ns", ["http://specs.openid.net/auth/2.0"]),
        ("openid.realm", ["r\xe9alm"]),
        ("openid.return_to", ["http://rp.example/cb?x=1&y=2"])] :=
  (buildRedirectURL_query_roundtrip "http://op.example/auth" "local id+1"
    "http://me.example/?a=b&c#d%41" "http://rp.example/cb?x=1&y=2" "r\xe9alm"
    (by decide) (by decide) (by decide) (by decide) (by decide) (by decide)).trans (by decide)

/-! ## Lemmas: the key order of `Encode` -/

theorem strings.lessEq_total (a b : List Char) :
    strings.lessEq a b = true ∨ strings.lessEq b a = true := by
  induction a generalizing b with
  | nil => exact Or.inl rfl
  | cons x xs ih =>
    cases b with
    | nil => exact Or.inr rfl
    | cons y ys =>
      simp only [strings.lessEq]
      by_cases h1 : x.toNat < y.toNat
      · simp [h1]
      · by_cases h2 : y.toNat < x.toNat
        · simp [h2]
        · simp only [h1, h2, if_false]
          exact ih ys

theorem strings.lessEq_trans (a b c : List Char) (hab : strings.lessEq a b = true)
    (hbc : strings.lessEq b c = true) : strings.lessEq a c = true := by
  induction a generalizing b c with
  | nil => rfl
  | cons x xs ih =>
    cases b with
    | nil => simp [strings.lessEq] at hab
    | cons y ys =>
      cases c with
      | nil => simp [strings.lessEq] at hbc
      | cons z zs =>
        simp only [strings.lessEq] at hab hbc ⊢
        by_cases h1 : x.toNat < y.toNat
        · by_cases h2 : y.toNat < z.toNat
          · have : x.toNat < z.toNat := by omega
            simp [this]
          · by_cases h3 : z.toNat < y.toNat
            · simp [h2, h3] at hbc
            · have : x.toNat < z.toNat := by omega
              simp [this]
        · by_cases h1' : y.toNat < x.toNat
          · simp [h1, h1'] at hab
          · simp only [h1, h1', if_false] at hab
            by_cases h2 : y.toNat < z.toNat
            · have : x.toNat < z.toNat := by omega
              simp [this]
            · by_cases h3 : z.toNat < y.toNat
              · simp [h2, h3] at hbc
              · simp only [h2, h3, if_false] at hbc
                have e1 : ¬ x.toNat < z.toNat := by omega
                have e2 : ¬ z.toNat < x.toNat := by omega
                simp only [e1, e2, if_false]
                exact ih ys zs hab hbc

theorem strings.lessEq_antisymm (a b : List Char) (hab : strings.lessEq a b = true)
    (hba : strings.lessEq b a = true) : a = b := by
  induction a generalizing b with
  | nil =>
    cases b with
    | nil => rfl
    | cons y ys => simp [strings.lessEq] at hba
  | cons x xs ih =>
    cases b with
    | nil => simp [strings.lessEq] at hab
    | cons y ys =>
      simp only [strings.lessEq] at hab hba
      by_cases h1 : x.toNat < y.toNat
      · have h2 : ¬ y.toNat < x.toNat := by omega
        simp [h1, h2] at hba
      · by_cases h2 : y.toNat < x.toNat
        · simp [h1, h2] at hab
        · simp only [h1, h2, if_false] at hab hba
          have hxy : x = y := by
            have e : x.toNat = y.toNat := by omega
            rw [← Char.ofNat_toNat x, ← Char.ofNat_toNat y, e]
          rw [hxy, ih ys hab hba]

theorem strings.sortStrings_eq (ks : List String) :
    strings.sortStrings ks =
      List.insertionSort (fun a b : String => strings.lessEq a.data b.data = true) ks := by
  have hins : ∀ (k : String) (l : List String), strings.insertSorted k l =
      List.orderedInsert (fun a b : String => strings.lessEq a.data b.data = true) k l := by
    intro k l
    induction l with
    | nil => rfl
    | cons x xs ih => simp only [strings.insertSorted, List.orderedInsert, ih]
  induction ks with
  | nil => rfl
  | cons k ks ih => simp only [strings.sortStrings, List.insertionSort, ih, hins]

/-- The keys come out of `sort.Strings` in ascending order. -/
theorem strings.sorted_sortStrings (ks : List String) :
    List.Sorted (fun a b : String => strings.lessEq a.data b.data = true)
      (strings.sortStrings ks) := by
  haveI : IsTotal String (fun a b : String => strings.lessEq a.data b.data = true) :=
    ⟨fun a b => strings.lessEq_total a.data b.data⟩
  haveI : IsTrans String (fun a b : String => strings.lessEq a.data b.data = true) :=
    ⟨fun a b c => strings.lessEq_trans a.data b.data c.data⟩
  rw [strings.sortStrings_eq]
  exact List.sorted_insertionSort _ _

/-- The result of `sort.Strings` does not depend on the order of its input. -/
theorem strings.sortStrings_perm {ks ks' : List String} (h : ks'.Perm ks) :
    strings.sortStrings ks' = strings.sortStrings ks := by
  haveI : IsAntisymm String (fun a b : String => strings.lessEq a.data b.data = true) :=
    ⟨fun a b h1 h2 => String.ext (strings.lessEq_antisymm a.data b.data h1 h2)⟩
  refine List.eq_of_perm_of_sorted ?_ (strings.sorted_sortStrings ks')
    (strings.sorted_sortStrings ks)
  rw [strings.sortStrings_eq, strings.sortStrings_eq]
  exact (List.perm_insertionSort _ _).trans (h.trans (List.perm_insertionSort _ _).symm)

theorem GoMap.get_perm {β : Type} {m m' : GoMap β} (hn : (GoMap.keys m).Nodup)
    (hp : m'.Perm m) (k : String) : GoMap.get m' k = GoMap.get m k := by
  have hk : (GoMap.keys m').Perm (GoMap.keys m) := hp.map _
  cases hg : GoMap.get m k with
  | none =>
    rw [GoMap.get_eq_none_iff] at hg ⊢
    exact fun h => hg (hk.mem_iff.1 h)
  | some v =>
    exact GoMap.get_of_mem (hk.nodup_iff.2 hn) (hp.mem_iff.2 (GoMap.mem_of_get hg))

/-- `Encode` gives the same text for every traversal order of the map. -/
theorem url.Encode_perm {v v' : Values} (hn : (GoMap.keys v).Nodup) (hp : v'.Perm v) :
    url.Encode v' = url.Encode v := by
  unfold url.Encode url.encodedPairs
  have hk : (GoMap.keys v').Perm (GoMap.keys v) := hp.map _
  rw [strings.sortStrings_perm hk]
  have : (fun k => List.map (fun x => (k, x)) ((GoMap.get v' k).getD [])) =
      (fun k => List.map (fun x => (k, x)) ((GoMap.get v k).getD [])) := by
    funext k
    rw [GoMap.get_perm hn hp k]
  rw [this]

theorem url.sorted_encodedPairs (v : Values) :
    List.Sorted (fun a b : String => strings.lessEq a.data b.data = true)
      ((url.encodedPairs v).map Prod.fst) := by
  unfold url.encodedPairs
  have hs := strings.sorted_sortStrings (GoMap.keys v)
  generalize strings.sortStrings (GoMap.keys v) = ks at hs
  induction ks with
  | nil => exact List.sorted_nil
  | cons k rest ih =>
    have hk := List.rel_of_sorted_cons hs
    rw [List.flatMap_cons, List.map_append]
    refine List.pairwise_append.2 ⟨?_, ih hs.of_cons, ?_⟩
    · rw [List.map_map]
      refine List.pairwise_of_forall_mem_list ?_
      intro a ha b hb
      obtain ⟨_, -, rfl⟩ := List.mem_map.1 ha
      obtain ⟨_, -, rfl⟩ := List.mem_map.1 hb
      exact (strings.lessEq_total k.data k.data).elim id id
    · intro a ha b hb
      rw [List.map_map] at ha
      obtain ⟨_, -, rfl⟩ := List.mem_map.1 ha
      obtain ⟨p, hp, rfl⟩ := List.mem_map.1 hb
      obtain ⟨k', hk', hp'⟩ := List.mem_flatMap.1 hp
      obtain ⟨_, -, rfl⟩ := List.mem_map.1 hp'
      exact hk k' hk'

set_option maxRecDepth 20000 in
/-- C15, counterexample: the bag of `RequestAttributes` for one required
alias was filled in the order `openid.ns.ax`, `openid.ax.mode`,
`openid.ax.type.one`, `openid.ax.required`; the URL lists these keys in
ascending order instead. -/
theorem buildRedirectURL_extra_resorted :
    GoMap.keys (RequestAttributes (some [("one", "test:one")]) none) =
        ["openid.ns.ax", "openid.ax.mode", "openid.ax.type.one", "openid.ax.required"] ∧
      buildRedirectURL "http://op.example/auth" "" "" "cb" ""
          (some (RequestAttributes (some [("one", "test:one")]) none)) =
        "http://op.example/auth?openid.identity=http%3A%2F%2Fspecs.openid.net%2Fauth%2F2.0%2Fidentifier_select&openid.mode=checkid_setup&openid.ns=http%3A%2F%2Fspecs.openid.net%2Fauth%2F2.0&openid.return_to=cb&openid.ax.mode=fetch_request&openid.ax.required=one&openid.ax.type.one=test%3Aone&openid.ns.ax=http%3A%2F%2Fopenid.net%2Fsrv%2Fax%2F1.0" := by
  decide

/-- C15, as amended. For every non-nil `extraValues`, the URL
`buildRedirectURL` returns ends with a literal `&` followed by
`extraValues.Encode()`, in which the extra keys appear in ascending byte
order, the same text for every order in which the caller filled the map. -/
theorem buildRedirectURL_extra_sorted (opEndpoint opLocalID claimedID returnTo realm : String)
    (extra extra' : Values) (hn : (GoMap.keys extra).Nodup) (hp : extra'.Perm extra) :
    buildRedirectURL opEndpoint opLocalID claimedID returnTo realm (some extra') =
        buildRedirectURL opEndpoint opLocalID claimedID returnTo realm none ++ "&" ++
          url.Encode extra' ∧
      url.Encode extra' = url.Encode extra ∧
      List.Sorted (fun a b : String => strings.lessEq a.data b.data = true)
        ((url.encodedPairs extra').map Prod.fst) := by
  refine ⟨?_, url.Encode_perm hn hp, url.sorted_encodedPairs extra'⟩
  rw [buildRedirectURL_eq, buildRedirectURL_eq]
  exact String.ext (by simp)

set_option maxRecDepth 20000 in
/-- C15, witness: two extra keys filled as `b`, `a` and as `a`, `b` give the
same tail `&a=2&b=1`. -/
theorem buildRedirectURL_extra_sorted_witness :
    (buildRedirectURL "http://op.example/auth" "" "" "cb" "" (some [("b", ["1"]), ("a", ["2"])]) =
        buildRedirectURL "http://op.example/auth" "" "" "cb" "" none ++ "&" ++
          url.Encode [("b", ["1"]), ("a", ["2"])] ∧
      url.Encode [("b", ["1"]), ("a", ["2"])] = url.Encode [("a", ["2"]), ("b", ["1"])] ∧
      List.Sorted (fun a b : String => strings.lessEq a.data b.data = true)
        ((url.encodedPairs [("b", ["1"]), ("a", ["2"])]).map Prod.fst)) ∧
    url.Encode [("b", ["1"]), ("a", ["2"])] = "a=2&b=1" :=
  ⟨buildRedirectURL_extra_sorted "http://op.example/auth" "" "" "cb" ""
      [("a", ["2"]), ("b", ["1"])] [("b", ["1"]), ("a", ["2"])] (by decide)
      (List.Perm.swap _ _ _),
    by decide⟩

/-! ## ParseAttributes: further claims -/

/-- C17, counterexample: the response declares the AX namespace under `a`
with mode `fetch_response` and no key `openid.a.value.*`, but also under `b`;
when the namespace loop meets `openid.ns.b` first, the result is not empty. -/
theorem ParseAttributes_other_alias_selected :
    GoMap.get twoAliasResponse ("openid.ns." ++ "a") = some [axNamespace] ∧
      GoMap.get twoAliasResponse ("openid." ++ "a" ++ ".mode") = some ["fetch_response"] ∧
      (∀ e ∈ twoAliasResponse, strings.HasPrefix e.1 ("openid." ++ "a" ++ ".value.") = false) ∧
      ParseAttributes (Runtime.fixed twoAliasResponse List.reverse id) "http://example.com/?" =
        .ok [("uid", "123456")] := by
  decide

/-- C17, as amended. When the extension alias `ext` the namespace loop
selects is not empty (so whenever `openid.ns.<ext>` is the only key that
declares the AX namespace), `openid.<ext>.mode` is `[fetch_response]` and no
key has the prefix `openid.<ext>.value.`, `ParseAttributes` returns a nil
error and a non-nil empty map. -/
theorem ParseAttributes_no_values (rt : Runtime) (uri : String) (values : Values) (ext : String)
    (hd : Decodes rt uri values)
    (hsel : findAlias (rt.range1 values) = ext)
    (hext : ext ≠ "")
    (hmode : GoMap.get values ("openid." ++ ext ++ ".mode") = some ["fetch_response"])
    (hnone : ∀ k, strings.HasPrefix k ("openid." ++ ext ++ ".value.") = true →
      GoMap.get values k = none) :
    ParseAttributes rt uri = .ok [] := by
  rw [ParseAttributes_of_alias hd hsel hext, if_neg (not_not.2 hmode)]
  obtain ⟨q, -, -, hwf, -, hp2⟩ := hd
  have hskip : ∀ e ∈ rt.range2 values, valueAlias ("openid." ++ ext ++ ".value.") e.1 = none := by
    intro e he
    cases hva : valueAlias ("openid." ++ ext ++ ".value.") e.1 with
    | none => rfl
    | some a =>
      exfalso
      obtain ⟨-, t, hk, -⟩ := valueAlias_some hva
      have hget : GoMap.get values e.1 = some e.2 :=
        GoMap.get_of_mem hwf.1 (hp2.mem_iff.1 he)
      rw [hnone e.1 (by rw [hk]; exact strings.hasPrefix_append _ _)] at hget
      exact Option.noConfusion hget
  generalize rt.range2 values = es at hskip
  induction es with
  | nil => rfl
  | cons e rest ih =>
    obtain ⟨k, v⟩ := e
    unfold valueLoop
    rw [hskip (k, v) (List.mem_cons_self _ _)]
    exact ih (fun e he => hskip e (List.mem_cons_of_mem _ he))

/-- C17, witness: a response with namespace, mode and a type declaration but
no value key. -/
theorem ParseAttributes_no_values_witness :
    ParseAttributes (Runtime.fixed noValueResponse id List.reverse) "http://example.com/?" =
      .ok [] :=
  ParseAttributes_no_values (Runtime.fixed noValueResponse id List.reverse)
    "http://example.com/?" noValueResponse "ext0"
    ⟨"http://example.com/?", rfl, rfl, by decide, List.Perm.refl _, List.reverse_perm _⟩
    (by decide) (by decide) (by decide)
    (fun k hk => by
      cases hget : GoMap.get noValueResponse k with
      | none => rfl
      | some w =>
        exact absurd hk (by
          have := (by decide : ∀ e ∈ noValueResponse,
            strings.HasPrefix e.1 ("openid." ++ "ext0" ++ ".value.") = false)
            _ (GoMap.mem_of_get hget)
          simp only at this
          rw [this]
          exact Bool.noConfusion))

/-- C19. For every input on which `ParseAttributes` succeeds with map `m`, no
key of `m` contains a `.`, and every value of `m` is the first entry of the
value list of some query key with prefix `openid.<ext>.value.`, `ext` being
the extension alias the namespace loop selected. -/
theorem ParseAttributes_result_invariant (rt : Runtime) (uri : String) (values : Values)
    (m : GoMap String)
    (hd : Decodes rt uri values)
    (hrun : ParseAttributes rt uri = .ok m) :
    (∀ a ∈ GoMap.keys m, '.' ∉ a.data) ∧
    (∀ a x, GoMap.get m a = some x →
      ∃ k v, strings.HasPrefix k ("openid." ++ findAlias (rt.range1 values) ++ ".value.") = true ∧
        GoMap.get values k = some v ∧ v.head? = some x) := by
  rw [ParseAttributes_of_decodes hd] at hrun
  split at hrun
  · simp at hrun
  split at hrun
  · simp at hrun
  obtain ⟨q, -, -, hwf, -, hp2⟩ := hd
  have key : ∀ a x, GoMap.get m a = some x →
      '.' ∉ a.data ∧ ∃ k v,
        strings.HasPrefix k ("openid." ++ findAlias (rt.range1 values) ++ ".value.") = true ∧
          GoMap.get values k = some v ∧ v.head? = some x := by
    intro a x hget
    by_cases hex : ∃ e ∈ rt.range2 values,
        valueAlias ("openid." ++ findAlias (rt.range1 values) ++ ".value.") e.1 = some a
    · obtain ⟨e, he, hea, y, hy, hm⟩ := valueLoop_written _ a _ _ m hrun hex
      obtain ⟨hdot, t, hk, -⟩ := valueAlias_some hea
      rw [hget] at hm
      refine ⟨hdot, e.1, e.2, by rw [hk]; exact strings.hasPrefix_append _ _,
        GoMap.get_of_mem hwf.1 (hp2.mem_iff.1 he), ?_⟩
      rw [hy, Option.some.inj hm]
    · have hun := valueLoop_untouched _ a _ _ m hrun (fun e he h => hex ⟨e, he, h⟩)
      rw [hget] at hun
      simp [GoMap.get] at hun
  refine ⟨?_, fun a x h => (key a x h).2⟩
  intro a ha
  cases hget : GoMap.get m a with
  | none => exact absurd ha ((GoMap.get_eq_none_iff m a).1 hget)
  | some x => exact (key a x hget).1

/-- C19, witness: the response of `TestParseAttributes`. -/
theorem ParseAttributes_result_invariant_witness :
    (∀ a ∈ GoMap.keys [("uid", "123456")], '.' ∉ a.data) ∧
    (∀ a x, GoMap.get [("uid", "123456")] a = some x →
      ∃ k v, strings.HasPrefix k
          ("openid." ++ findAlias ((Runtime.fixed testResponse id id).range1 testResponse) ++
            ".value.") = true ∧
        GoMap.get testResponse k = some v ∧ v.head? = some x) :=
  ParseAttributes_result_invariant (Runtime.fixed testResponse id id) "http://example.com/?"
    testResponse [("uid", "123456")]
    ⟨"http://example.com/?", rfl, rfl, by decide, List.Perm.refl _, List.Perm.refl _⟩
    (by decide)

/-- C20. When the only key with prefix `openid.ns.` that carries the single
value `http://openid.net/srv/ax/1.0` is `openid.ns.` itself, `ParseAttributes`
fails with "Did not find an alias for the attribute extension", also when
`openid..mode` is `[fetch_response]`. -/
theorem ParseAttributes_empty_alias (rt : Runtime) (uri : String) (values : Values)
    (hd : Decodes rt uri values)
    (hns : GoMap.get values "openid.ns." = some [axNamespace])
    (huniq : ∀ k, strings.HasPrefix k "openid.ns." = true →
      GoMap.get values k = some [axNamespace] → k = "openid.ns.") :
    ParseAttributes rt uri =
      .error (.error "Did not find an alias for the attribute extension") := by
  have hemp : "openid.ns." ++ "" = "openid.ns." := rfl
  have hal : findAlias (rt.range1 values) = "" :=
    findAlias_of_declared hd (by rw [hemp]; exact hns) (by rw [hemp]; exact huniq)
  rw [ParseAttributes_of_decodes hd, hal]
  rfl

/-- C20, witness: `openid.ns.` declares the namespace and `openid..mode` is
`fetch_response`. -/
theorem ParseAttributes_empty_alias_witness :
    GoMap.get emptyAliasResponse "openid..mode" = some ["fetch_response"] ∧
      ParseAttributes (Runtime.fixed emptyAliasResponse id id) "http://example.com/?" =
        .error (.error "Did not find an alias for the attribute extension") :=
  ⟨by decide,
    ParseAttributes_empty_alias (Runtime.fixed emptyAliasResponse id id) "http://example.com/?"
      emptyAliasResponse
      ⟨"http://example.com/?", rfl, rfl, by decide, List.Perm.refl _, List.Perm.refl _⟩
      (by decide)
      (fun k _ hk =>
        (by decide : ∀ e ∈ emptyAliasResponse, e.2 = [axNamespace] → e.1 = "openid.ns.")
          (k, [axNamespace]) (GoMap.mem_of_get hk) rfl)⟩

/-! ## Lemmas: well-formed bags -/

theorem GoMap.mem_set {β : Type} {m : GoMap β} {k : String} {v : β} {e : String × β}
    (h : e ∈ GoMap.set m k v) : e = (k, v) ∨ e ∈ m := by
  induction m with
  | nil =>
    simp only [GoMap.set, List.mem_singleton] at h
    exact Or.inl h
  | cons x rest ih =>
    obtain ⟨a, b⟩ := x
    by_cases hk : a = k
    · simp only [GoMap.set, hk, if_true, List.mem_cons] at h
      rcases h with h | h
      · exact Or.inl h
      · exact Or.inr (List.mem_cons_of_mem _ h)
    · simp only [GoMap.set, hk, if_false, List.mem_cons] at h
      rcases h with h | h
      · exact Or.inr (h ▸ List.mem_cons_self _ _)
      · rcases ih h with h | h
        · exact Or.inl h
        · exact Or.inr (List.mem_cons_of_mem _ h)

theorem GoMap.mem_keys_set {β : Type} {m : GoMap β} {k k' : String} {v : β}
    (h : k' ∈ GoMap.keys (GoMap.set m k v)) : k' = k ∨ k' ∈ GoMap.keys m := by
  obtain ⟨e, he, rfl⟩ := List.mem_map.1 h
  rcases GoMap.mem_set he with h | h
  · exact Or.inl (by rw [h])
  · exact Or.inr (List.mem_map_of_mem Prod.fst h)

theorem GoMap.nodup_keys_set {β : Type} (m : GoMap β) (k : String) (v : β)
    (h : (GoMap.keys m).Nodup) : (GoMap.keys (GoMap.set m k v)).Nodup := by
  induction m with
  | nil => simp [GoMap.set, GoMap.keys]
  | cons x rest ih =>
    obtain ⟨a, b⟩ := x
    simp only [GoMap.keys, List.map_cons, List.nodup_cons] at h
    by_cases hk : a = k
    · subst hk
      simp only [GoMap.set, if_true, GoMap.keys, List.map_cons, List.nodup_cons]
      exact h
    · simp only [GoMap.set, hk, if_false, GoMap.keys, List.map_cons, List.nodup_cons]
      refine ⟨?_, ih h.2⟩
      intro hmem
      rcases GoMap.mem_keys_set hmem with e | e
      · exact hk e
      · exact h.1 e

theorem Values.wellFormed_Add (vs : Values) (k v : String) (h : vs.WellFormed) :
    (vs.Add k v).WellFormed := by
  refine ⟨GoMap.nodup_keys_set _ _ _ h.1, ?_⟩
  intro e he
  rcases GoMap.mem_set he with e' | e'
  · rw [e']
    simp
  · exact h.2 e e'

theorem url.wellFormed_parsePiece (key : String) (st : Values × Option String)
    (h : st.1.WellFormed) : (url.parsePiece key st).1.WellFormed := by
  unfold url.parsePiece
  by_cases h1 : strings.Contains key ";" = true
  · rw [if_pos h1]
    exact h
  rw [if_neg h1]
  by_cases h2 : key = ""
  · rw [if_pos h2]
    exact h
  rw [if_neg h2]
  simp only
  cases url.QueryUnescape (strings.Cut key '=').1 with
  | error err => exact h
  | ok k =>
    cases url.QueryUnescape (strings.Cut key '=').2 with
    | error err => exact h
    | ok x => exact Values.wellFormed_Add _ _ _ h

/-- The map `ParseQuery` returns has distinct keys and no empty value list. -/
theorem url.wellFormed_ParseQuery (query : String) (values : Values)
    (h : url.ParseQuery query = .ok values) : values.WellFormed := by
  have hfold : ∀ (pieces : List String) (st : Values × Option String), st.1.WellFormed →
      (pieces.foldl (fun st key => url.parsePiece key st) st).1.WellFormed := by
    intro pieces
    induction pieces with
    | nil => exact fun st h => h
    | cons p rest ih => exact fun st h => ih _ (url.wellFormed_parsePiece p st h)
  have h0 : Values.WellFormed ([] : Values) := by decide
  have hres := hfold (strings.Split query '&') ([], none) h0
  unfold url.ParseQuery at h
  split at h
  · rename_i m heq
    rw [heq] at hres
    simp only [Except.ok.injEq] at h
    rw [← h]
    exact hres
  · simp at h

theorem Runtime.lawful_netURL (first second : Values → Values)
    (h1 : ∀ values, (first values).Perm values) (h2 : ∀ values, (second values).Perm values) :
    (Runtime.netURL first second).Lawful :=
  fun q values h => ⟨url.wellFormed_ParseQuery q values h, h1 values, h2 values⟩

theorem ParseAttributesReturn_eq (rt : Runtime) (uri : String) :
    ParseAttributesReturn rt uri =
      match ParseAttributes rt uri with
      | .ok out => some (some out, none)
      | .error (.error err) => some (none, some err)
      | .error .indexOutOfRange => none := by
  unfold ParseAttributesReturn ParseAttributes
  cases rt.Parse uri with
  | error err => rfl
  | ok q =>
    simp only
    cases rt.ParseQuery q with
    | error err => rfl
    | ok values =>
      simp only
      by_cases hlen : (findAlias (rt.range1 values)).length = 0
      · simp only [hlen, if_true]
      · simp only [hlen, if_false]
        by_cases hmode :
            (GoMap.get values ("openid." ++ findAlias (rt.range1 values) ++ ".mode")).getD [] = [] ∨
              ((GoMap.get values ("openid." ++ findAlias (rt.range1 values) ++ ".mode")).getD
                []).length ≠ 1 ∨
              ((GoMap.get values ("openid." ++ findAlias (rt.range1 values) ++ ".mode")).getD
                []).head? ≠ some "fetch_response"
        · simp only [hmode, if_true]
        · simp only [hmode, if_false]
          cases hv : valueLoop ("openid." ++ findAlias (rt.range1 values) ++ ".value.")
              (rt.range2 values) [] with
          | ok m => rfl
          | error f =>
            cases f with
            | error msg => exact absurd hv (valueLoop_ne_error _ _ _ _)
            | indexOutOfRange => rfl

/-- C18. For every input string, under a runtime that keeps Go's guarantees,
`ParseAttributes` returns, and it returns exactly one of a map and an error:
either a non-nil map with a nil error, or a nil map with a non-nil error. -/
theorem ParseAttributes_map_or_error (rt : Runtime) (uri : String) (hl : rt.Lawful) :
    (∃ m, ParseAttributesReturn rt uri = some (some m, none)) ∨
      (∃ err, ParseAttributesReturn rt uri = some (none, some err)) := by
  unfold ParseAttributesReturn
  cases hp : rt.Parse uri with
  | error err => exact Or.inr ⟨err, rfl⟩
  | ok q =>
    simp only
    cases hq : rt.ParseQuery q with
    | error err => exact Or.inr ⟨err, rfl⟩
    | ok values =>
      simp only
      by_cases hlen : (findAlias (rt.range1 values)).length = 0
      · simp only [hlen, if_true]
        exact Or.inr ⟨_, rfl⟩
      · simp only [hlen, if_false]
        by_cases hmode :
            (GoMap.get values ("openid." ++ findAlias (rt.range1 values) ++ ".mode")).getD [] = [] ∨
              ((GoMap.get values ("openid." ++ findAlias (rt.range1 values) ++ ".mode")).getD
                []).length ≠ 1 ∨
              ((GoMap.get values ("openid." ++ findAlias (rt.range1 values) ++ ".mode")).getD
                []).head? ≠ some "fetch_response"
        · simp only [hmode, if_true]
          exact Or.inr ⟨_, rfl⟩
        · simp only [hmode, if_false]
          obtain ⟨hwf, -, hp2⟩ := hl q values hq
          obtain ⟨m, hm⟩ := valueLoop_total
            ("openid." ++ findAlias (rt.range1 values) ++ ".value.") (rt.range2 values) []
            (fun e he => hwf.2 e (hp2.mem_iff.1 he))
          rw [hm]
          exact Or.inl ⟨m, rfl⟩

set_option maxRecDepth 20000 in
/-- C18, witness: under the runtime with the modelled `url.ParseQuery`, a
well-formed response gives a map and no error, and a response without mode
gives an error and no map. -/
theorem ParseAttributes_map_or_error_witness :
    ((∃ m, ParseAttributesReturn (Runtime.netURL id List.reverse)
          "http://example.com/?openid.ns.ext0=http%3A%2F%2Fopenid.net%2Fsrv%2Fax%2F1.0&openid.ext0.mode=fetch_response&openid.ext0.value.uid.1=123456" =
        some (some m, none)) ∨
      (∃ err, ParseAttributesReturn (Runtime.netURL id List.reverse)
          "http://example.com/?openid.ns.ext0=http%3A%2F%2Fopenid.net%2Fsrv%2Fax%2F1.0&openid.ext0.mode=fetch_response&openid.ext0.value.uid.1=123456" =
        some (none, some err))) ∧
    ParseAttributesReturn (Runtime.netURL id List.reverse)
        "http://example.com/?openid.ns.ext0=http%3A%2F%2Fopenid.net%2Fsrv%2Fax%2F1.0&openid.ext0.mode=fetch_response&openid.ext0.value.uid.1=123456" =
      some (some [("uid", "123456")], none) ∧
    ParseAttributesReturn (Runtime.netURL id List.reverse)
        "http://example.com/?openid.ns.ext0=http%3A%2F%2Fopenid.net%2Fsrv%2Fax%2F1.0" =
      some (none, some "The extension mode is not fetch_response") :=
  ⟨ParseAttributes_map_or_error (Runtime.netURL id List.reverse)
      "http://example.com/?openid.ns.ext0=http%3A%2F%2Fopenid.net%2Fsrv%2Fax%2F1.0&openid.ext0.mode=fetch_response&openid.ext0.value.uid.1=123456"
      (Runtime.lawful_netURL id List.reverse (fun _ => List.Perm.refl _)
        (fun _ => List.reverse_perm _)),
    by decide, by decide⟩

/-! ## Lemmas: the synthetic response -/

/-- Two literal prefixes that differ where both are defined cannot both start
a string. -/
theorem strings.hasPrefix_append_false (p q a : String)
    (h : p.data.take q.length ≠ q.data.take p.length) :
    strings.HasPrefix (q ++ a) p = false := by
  cases hp : strings.HasPrefix (q ++ a) p with
  | false => rfl
  | true =>
    exfalso
    apply h
    obtain ⟨t, ht⟩ := (strings.hasPrefix_iff _ _).1 hp
    have hd : q.data ++ a.data = p.data ++ t.data := by
      have := congrArg String.data ht
      simpa using this
    rw [strings.length_eq, strings.length_eq]
    rcases Nat.le_total p.data.length q.data.length with hle | hle
    · rw [List.take_of_length_le hle]
      have := congrArg (List.take p.data.length) hd
      rw [List.take_append_of_le_length hle, List.take_left'] at this
      · exact this.symm
      · rfl
    · rw [List.take_of_length_le hle]
      have := congrArg (List.take q.data.length) hd
      rw [List.take_left', List.take_append_of_le_length hle] at this
      · exact this.symm
      · rfl

theorem strings.ne_append_of_not_hasPrefix (lit p a : String)
    (h : strings.HasPrefix lit p = false) : lit ≠ p ++ a := by
  intro e
  rw [e, strings.hasPrefix_append] at h
  exact Bool.noConfusion h

theorem typeLoop_wellFormed (es : GoMap String) (vs : Values) (l : String)
    (h : vs.WellFormed) : (typeLoop es vs l).1.WellFormed := by
  induction es generalizing vs l with
  | nil => exact h
  | cons e rest ih =>
    obtain ⟨a, u⟩ := e
    simp only [typeLoop]
    exact ih _ _ (Values.wellFormed_Add _ _ _ h)

theorem requestBlock_wellFormed (lk : String) (m : Option (GoMap String)) (vs : Values)
    (h : vs.WellFormed) : (requestBlock lk m vs).WellFormed := by
  cases m with
  | none => exact h
  | some es =>
    simp only [requestBlock]
    split
    · exact Values.wellFormed_Add _ _ _ (typeLoop_wellFormed _ _ _ h)
    · exact typeLoop_wellFormed _ _ _ h

/-- The bag `RequestAttributes` returns is a well-formed map. -/
theorem RequestAttributes_wellFormed (required optional : Option (GoMap String)) :
    (RequestAttributes required optional).WellFormed := by
  rw [RequestAttributes_eq]
  exact requestBlock_wellFormed _ _ _ (requestBlock_wellFormed _ _ _ (by decide))

/-- The entries of the synthetic response: an emitted namespace or type
declaration, the mode, or the value of an alias. -/
theorem mem_syntheticResponse (required optional : Option (GoMap String))
    (value : String → String) (e : String × List String) :
    e ∈ syntheticResponse required optional value ↔
      (e ∈ RequestAttributes required optional ∧
        (e.1 = "openid.ns.ax" ∨ strings.HasPrefix e.1 "openid.ax.type." = true)) ∨
      e = ("openid.ax.mode", ["fetch_response"]) ∨
      ∃ a, (a ∈ GoMap.keys (entries required) ∨ a ∈ GoMap.keys (entries optional)) ∧
        e = ("openid.ax.value." ++ a, [value a]) := by
  unfold syntheticResponse
  simp only [List.mem_append, List.mem_filter, Bool.or_eq_true, decide_eq_true_eq,
    List.mem_singleton, List.mem_map]
  constructor
  · rintro ((h | h) | ⟨a, ha, rfl⟩)
    · exact Or.inl h
    · exact Or.inr (Or.inl h)
    · exact Or.inr (Or.inr ⟨a, ha, rfl⟩)
  · rintro (h | h | ⟨a, ha, rfl⟩)
    · exact Or.inl (Or.inl h)
    · exact Or.inl (Or.inr h)
    · exact Or.inr ⟨a, ha, rfl⟩

/-- Only the value entries of the synthetic response have a key with prefix
`openid.ax.value.`. -/
theorem syntheticResponse_value_key (required optional : Option (GoMap String))
    (value : String → String) (e : String × List String)
    (he : e ∈ syntheticResponse required optional value)
    (hp : strings.HasPrefix e.1 "openid.ax.value." = true) :
    ∃ a, (a ∈ GoMap.keys (entries required) ∨ a ∈ GoMap.keys (entries optional)) ∧
      e = ("openid.ax.value." ++ a, [value a]) := by
  rcases (mem_syntheticResponse _ _ _ e).1 he with ⟨-, h | h⟩ | h | h
  · rw [h] at hp
    exact absurd hp (by decide)
  · obtain ⟨t, ht⟩ := (strings.hasPrefix_iff _ _).1 h
    rw [ht, strings.hasPrefix_append_false _ _ _ (by decide)] at hp
    exact Bool.noConfusion hp
  · rw [h] at hp
    exact absurd hp (by decide)
  · exact h

/-- Only `openid.ns.ax` has the prefix `openid.ns.` in the synthetic
response. -/
theorem syntheticResponse_ns_key (required optional : Option (GoMap String))
    (value : String → String) (e : String × List String)
    (he : e ∈ syntheticResponse required optional value)
    (hp : strings.HasPrefix e.1 "openid.ns." = true) : e.1 = "openid.ns.ax" := by
  rcases (mem_syntheticResponse _ _ _ e).1 he with ⟨-, h | h⟩ | h | ⟨a, -, h⟩
  · exact h
  · obtain ⟨t, ht⟩ := (strings.hasPrefix_iff _ _).1 h
    rw [ht, strings.hasPrefix_append_false _ _ _ (by decide)] at hp
    exact Bool.noConfusion hp
  · rw [h] at hp
    exact absurd hp (by decide)
  · rw [h] at hp
    simp only at hp
    rw [strings.hasPrefix_append_false _ _ _ (by decide)] at hp
    exact Bool.noConfusion hp

/-- The synthetic response is a well-formed map when no alias is listed
twice. -/
theorem syntheticResponse_wellFormed (required optional : Option (GoMap String))
    (value : String → String)
    (hr : (GoMap.keys (entries required)).Nodup) (ho : (GoMap.keys (entries optional)).Nodup)
    (hdisj : ∀ a ∈ GoMap.keys (entries required), a ∉ GoMap.keys (entries optional)) :
    (syntheticResponse required optional value).WellFormed := by
  have hra := RequestAttributes_wellFormed required optional
  constructor
  · have hal : (GoMap.keys (entries required) ++ GoMap.keys (entries optional)).Nodup :=
      List.nodup_append.2 ⟨hr, ho, fun a h1 h2 => hdisj a h1 h2⟩
    unfold syntheticResponse
    generalize GoMap.keys (entries required) ++ GoMap.keys (entries optional) = al at hal
    have hfilt : (List.map Prod.fst ((RequestAttributes required optional).filter
        (fun e => e.1 = "openid.ns.ax" || strings.HasPrefix e.1 "openid.ax.type."))).Nodup :=
      hra.1.sublist ((List.filter_sublist _).map _)
    have hvals : (List.map (Prod.fst ∘ fun a => ("openid.ax.value." ++ a, [value a])) al).Nodup := by
      refine List.Nodup.map ?_ hal
      intro a b hab
      exact strings.append_left_cancel hab
    have hfk : ∀ k ∈ List.map Prod.fst ((RequestAttributes required optional).filter
        (fun e => e.1 = "openid.ns.ax" || strings.HasPrefix e.1 "openid.ax.type.")),
        k = "openid.ns.ax" ∨ strings.HasPrefix k "openid.ax.type." = true := by
      intro k hk
      obtain ⟨e, he, rfl⟩ := List.mem_map.1 hk
      have := (List.mem_filter.1 he).2
      simpa using this
    have hvk : ∀ k ∈ List.map (Prod.fst ∘ fun a => ("openid.ax.value." ++ a, [value a])) al,
        strings.HasPrefix k "openid.ax.value." = true := by
      intro k hk
      obtain ⟨a, -, rfl⟩ := List.mem_map.1 hk
      exact strings.hasPrefix_append _ _
    unfold GoMap.keys
    rw [List.map_append, List.map_append, List.map_map]
    refine List.nodup_append.2 ⟨List.nodup_append.2 ⟨hfilt, by simp, ?_⟩, hvals, ?_⟩
    · intro k hk hk'
      simp only [List.map_cons, List.map_nil, List.mem_singleton] at hk'
      subst hk'
      rcases hfk _ hk with h | h
      · exact absurd h (by decide)
      · exact absurd h (by decide)
    · intro k hk hk'
      have hv := hvk k hk'
      rcases List.mem_append.1 hk with h | h
      · rcases hfk _ h with h | h
        · rw [h] at hv
          exact absurd hv (by decide)
        · obtain ⟨t, ht⟩ := (strings.hasPrefix_iff _ _).1 h
          rw [ht, strings.hasPrefix_append_false _ _ _ (by decide)] at hv
          exact Bool.noConfusion hv
      · simp only [List.map_cons, List.map_nil, List.mem_singleton] at h
        rw [h] at hv
        exact absurd hv (by decide)
  · intro e he
    rcases (mem_syntheticResponse _ _ _ e).1 he with ⟨h, -⟩ | h | ⟨a, -, h⟩
    · exact hra.2 e h
    · rw [h]
      simp
    · rw [h]
      simp

theorem RequestAttributes_get_ns (required optional : Option (GoMap String)) :
    GoMap.get (RequestAttributes required optional) "openid.ns.ax" = some [axNamespace] := by
  rw [RequestAttributes_get _ _ _ (by decide) (by decide),
    declared_of_other_key _ _ (by decide), declared_of_other_key _ _ (by decide)]
  rfl

/-- In the synthetic response, a key the value loop stores under `a` is the
value key of the alias `a`. -/
theorem syntheticResponse_resolves (required optional : Option (GoMap String))
    (value : String → String) (a : String) (e : String × List String)
    (hal : ∀ b, b ∈ GoMap.keys (entries required) ∨ b ∈ GoMap.keys (entries optional) →
      '.' ∉ b.data)
    (he : e ∈ syntheticResponse required optional value)
    (hva : valueAlias "openid.ax.value." e.1 = some a) :
    (a ∈ GoMap.keys (entries required) ∨ a ∈ GoMap.keys (entries optional)) ∧
      e = ("openid.ax.value." ++ a, [value a]) := by
  obtain ⟨-, t, hk, ht⟩ := valueAlias_some hva
  obtain ⟨b, hb, heb⟩ := syntheticResponse_value_key _ _ _ e he
    (by rw [hk]; exact strings.hasPrefix_append _ _)
  have htb : t = b := by
    have : "openid.ax.value." ++ t = "openid.ax.value." ++ b := by
      rw [← hk, heb]
    exact strings.append_left_cancel this
  rcases ht with ht | ⟨ht, -⟩
  · rw [← ht, htb]
    exact ⟨hb, heb⟩
  · exfalso
    obtain ⟨s, hs⟩ := (strings.hasPrefix_iff _ _).1 ht
    apply hal b hb
    rw [← htb, hs]
    simp

/-- C16. Round trip on alias names: for required and optional maps with
pairwise distinct aliases free of `.`, and every assignment `value` of a value
to each alias, the response that holds the namespace and type declarations
emitted by `RequestAttributes`, `openid.ax.mode=fetch_response` and one key
`openid.ax.value.<alias>` per alias is decoded by `ParseAttributes` without
error to exactly the map alias -> value. -/
theorem RequestAttributes_ParseAttributes_roundtrip (rt : Runtime) (uri rawQuery : String)
    (required optional : Option (GoMap String)) (value : String → String)
    (hr : (GoMap.keys (entries required)).Nodup) (ho : (GoMap.keys (entries optional)).Nodup)
    (hdisj : ∀ a ∈ GoMap.keys (entries required), a ∉ GoMap.keys (entries optional))
    (hal : ∀ a, a ∈ GoMap.keys (entries required) ∨ a ∈ GoMap.keys (entries optional) →
      '.' ∉ a.data)
    (hparse : rt.Parse uri = .ok rawQuery)
    (hquery : rt.ParseQuery rawQuery = .ok (syntheticResponse required optional value))
    (h1 : (rt.range1 (syntheticResponse required optional value)).Perm
      (syntheticResponse required optional value))
    (h2 : (rt.range2 (syntheticResponse required optional value)).Perm
      (syntheticResponse required optional value)) :
    ∃ m, ParseAttributes rt uri = .ok m ∧
      ∀ a, GoMap.get m a =
        if a ∈ GoMap.keys (entries required) ∨ a ∈ GoMap.keys (entries optional)
        then some (value a) else none := by
  have hwf := syntheticResponse_wellFormed required optional value hr ho hdisj
  have hd : Decodes rt uri (syntheticResponse required optional value) :=
    ⟨rawQuery, hparse, hquery, hwf, h1, h2⟩
  have hnsmem : ("openid.ns.ax", [axNamespace]) ∈ syntheticResponse required optional value :=
    (mem_syntheticResponse _ _ _ _).2
      (Or.inl ⟨GoMap.mem_of_get (RequestAttributes_get_ns required optional), Or.inl rfl⟩)
  have hk1 : "openid.ns." ++ "ax" = "openid.ns.ax" := by decide
  have hk2 : "openid." ++ "ax" ++ ".mode" = "openid.ax.mode" := by decide
  have hk3 : "openid." ++ "ax" ++ ".value." = "openid.ax.value." := by decide
  have hsel : findAlias (rt.range1 (syntheticResponse required optional value)) = "ax" := by
    refine findAlias_of_declared hd ?_ ?_
    · rw [hk1]
      exact GoMap.get_of_mem hwf.1 hnsmem
    · intro k hk hget
      rw [hk1]
      exact syntheticResponse_ns_key _ _ _ _ (GoMap.mem_of_get hget) hk
  have hmode : GoMap.get (syntheticResponse required optional value)
      ("openid." ++ "ax" ++ ".mode") = some ["fetch_response"] := by
    rw [hk2]
    exact GoMap.get_of_mem hwf.1 ((mem_syntheticResponse _ _ _ _).2 (Or.inr (Or.inl rfl)))
  rw [ParseAttributes_of_alias hd hsel (by decide), if_neg (not_not.2 hmode), hk3]
  obtain ⟨m, hm⟩ := valueLoop_total "openid.ax.value."
    (rt.range2 (syntheticResponse required optional value)) []
    (fun e he => hwf.2 e (h2.mem_iff.1 he))
  refine ⟨m, hm, fun a => ?_⟩
  by_cases ha : a ∈ GoMap.keys (entries required) ∨ a ∈ GoMap.keys (entries optional)
  · rw [if_pos ha]
    have hmem : ("openid.ax.value." ++ a, [value a]) ∈
        rt.range2 (syntheticResponse required optional value) :=
      h2.mem_iff.2 ((mem_syntheticResponse _ _ _ _).2 (Or.inr (Or.inr ⟨a, ha, rfl⟩)))
    obtain ⟨e, he, hea, x, hx, hget⟩ := valueLoop_written _ a _ _ m hm
      ⟨_, hmem, valueAlias_plain _ a (hal a ha)⟩
    obtain ⟨-, hee⟩ := syntheticResponse_resolves _ _ value a e hal (h2.mem_iff.1 he) hea
    rw [hee] at hx
    simp only [List.head?_cons, Option.some.injEq] at hx
    rw [hget, hx]
  · rw [if_neg ha]
    have hun := valueLoop_untouched "openid.ax.value." a _ _ m hm (fun e he hea =>
      ha (syntheticResponse_resolves _ _ value a e hal (h2.mem_iff.1 he) hea).1)
    rw [hun]
    rfl

/-- C16, witness: the maps of `TestCreateAttributes` and the values
`v-one`, `v-two`, `v-three`. -/
theorem RequestAttributes_ParseAttributes_roundtrip_witness :
    (∃ m, ParseAttributes
        (Runtime.fixed (syntheticResponse (some [("one", "test:one")])
          (some [("two", "2"), ("three", "3")]) (fun a => "v-" ++ a)) id List.reverse)
        "http://example.com/?" = .ok m ∧
      ∀ a, GoMap.get m a =
        if a ∈ GoMap.keys (entries (some [("one", "test:one")])) ∨
            a ∈ GoMap.keys (entries (some [("two", "2"), ("three", "3")]))
        then some ((fun a => "v-" ++ a) a) else none) ∧
    ParseAttributes
        (Runtime.fixed (syntheticResponse (some [("one", "test:one")])
          (some [("two", "2"), ("three", "3")]) (fun a => "v-" ++ a)) id List.reverse)
        "http://example.com/?" =
      .ok [("three", "v-three"), ("two", "v-two"), ("one", "v-one")] :=
  ⟨RequestAttributes_ParseAttributes_roundtrip
      (Runtime.fixed (syntheticResponse (some [("one", "test:one")])
        (some [("two", "2"), ("three", "3")]) (fun a => "v-" ++ a)) id List.reverse)
      "http://example.com/?" "http://example.com/?"
      (some [("one", "test:one")]) (some [("two", "2"), ("three", "3")]) (fun a => "v-" ++ a)
      (by decide) (by decide) (by decide)
      (by
        intro a ha
        have hmem : a ∈ ["one", "two", "three"] := by
          rcases ha with h | h
          · exact List.mem_append_left _ h
          · exact List.mem_append_right ["one"] h
        exact (by decide : ∀ b ∈ ["one", "two", "three"], '.' ∉ b.data) a hmem)
      rfl rfl (List.Perm.refl _) (List.reverse_perm _),
    by decide⟩

end openid
